import Mathlib

/-!
Verification of the OWIxsec section-line engine against its design document.

This file gives a shallow embedding, in Lean 4, of the section-line core of
the OWIxsec repository (`geometry_base.py`, `fence_line.py`,
`projected_line.py`, `singleton_section_line.py`) and proves or refutes the
stated properties of that code.  Python floats are modelled as real numbers,
dictionaries as association lists in insertion order, and a raised exception
as an `Option.none` result.  Where the source leaves tie-breaking to
`np.argsort` (whose order on ties is unspecified), the embedding fixes the
stable tie-break by original position and theorems that depend on the order
of ties carry a distinctness hypothesis.
-/

namespace OWIxsec

open Real

/-- A 2-D point `(x, y)`; the source passes these around as tuples. -/
abbrev Pt : Type := ℝ × ℝ

/-- `hypot_p(a, b)` from `fence_line.py`:
`np.sqrt((a[0]-b[0])**2 + (a[1]-b[1])**2)`. -/
noncomputable def hypot_p (a b : Pt) : ℝ :=
  Real.sqrt ((a.1 - b.1) ^ 2 + (a.2 - b.2) ^ 2)

/-! ## `principle_rad_angle` (`geometry_base.py`, lines 56-64)

```
while r < -np.pi: r += 2*np.pi
while r > np.pi:  r -= 2*np.pi
return r
```
Each `while` loop is embedded as a well-founded recursion whose measure is
the number of remaining iterations. -/

/-- The first loop of `principle_rad_angle`: `while r < -pi: r += 2*pi`. -/
noncomputable def praUp (r : ℝ) : ℝ :=
  if r < -π then praUp (r + 2 * π) else r
termination_by Nat.ceil ((-π - r) / (2 * π))
decreasing_by
  have hpi : (0:ℝ) < π := Real.pi_pos
  have ht : (0:ℝ) < (-π - r) / (2 * π) := by
    apply div_pos (by linarith) (by linarith)
  have hstep : (-π - (r + 2 * π)) / (2 * π) = (-π - r) / (2 * π) - 1 := by
    field_simp
    ring
  rw [hstep]
  set t : ℝ := (-π - r) / (2 * π)
  have h1 : 1 ≤ Nat.ceil t := by
    have := Nat.ceil_pos.mpr ht
    omega
  have h2 : Nat.ceil (t - 1) ≤ Nat.ceil t - 1 := by
    rw [Nat.ceil_le]
    have hle : t ≤ (Nat.ceil t : ℝ) := Nat.le_ceil t
    have hcast : ((Nat.ceil t - 1 : ℕ) : ℝ) = (Nat.ceil t : ℝ) - 1 := by
      push_cast [h1]
      ring
    rw [hcast]
    linarith
  omega

/-- The second loop of `principle_rad_angle`: `while r > pi: r -= 2*pi`. -/
noncomputable def praDown (r : ℝ) : ℝ :=
  if r > π then praDown (r - 2 * π) else r
termination_by Nat.ceil ((r - π) / (2 * π))
decreasing_by
  have hpi : (0:ℝ) < π := Real.pi_pos
  have ht : (0:ℝ) < (r - π) / (2 * π) := by
    apply div_pos (by linarith) (by linarith)
  have hstep : (r - 2 * π - π) / (2 * π) = (r - π) / (2 * π) - 1 := by
    field_simp
    ring
  rw [hstep]
  set t : ℝ := (r - π) / (2 * π)
  have h1 : 1 ≤ Nat.ceil t := by
    have := Nat.ceil_pos.mpr ht
    omega
  have h2 : Nat.ceil (t - 1) ≤ Nat.ceil t - 1 := by
    rw [Nat.ceil_le]
    have hle : t ≤ (Nat.ceil t : ℝ) := Nat.le_ceil t
    have hcast : ((Nat.ceil t - 1 : ℕ) : ℝ) = (Nat.ceil t : ℝ) - 1 := by
      push_cast [h1]
      ring
    rw [hcast]
    linarith
  omega

/-- `principle_rad_angle(r)` from `geometry_base.py`: shift the angle `r`
by multiples of `2*pi` using the two `while` loops above. -/
noncomputable def principle_rad_angle (r : ℝ) : ℝ :=
  praDown (praUp r)

lemma praUp_spec (r : ℝ) :
    (∃ k : ℤ, praUp r = r + 2 * π * k) ∧ -π ≤ praUp r ∧
      (r ≤ π → praUp r ≤ π) := by
  have hpi : (0:ℝ) < π := Real.pi_pos
  induction r using praUp.induct with
  | case1 r hlt ih =>
    rw [praUp, if_pos hlt]
    obtain ⟨⟨k, hk⟩, hlo, hhi⟩ := ih
    refine ⟨⟨k + 1, by rw [hk]; push_cast; ring⟩, hlo, fun _ => hhi (by linarith)⟩
  | case2 r hge =>
    rw [praUp, if_neg hge]
    exact ⟨⟨0, by push_cast; ring⟩, by linarith [not_lt.mp hge], fun h => h⟩

lemma praDown_spec (r : ℝ) :
    (∃ k : ℤ, praDown r = r - 2 * π * k) ∧ praDown r ≤ π ∧
      (-π ≤ r → -π ≤ praDown r) := by
  have hpi : (0:ℝ) < π := Real.pi_pos
  induction r using praDown.induct with
  | case1 r hgt ih =>
    rw [praDown, if_pos hgt]
    obtain ⟨⟨k, hk⟩, hhi, hlo⟩ := ih
    refine ⟨⟨k + 1, by rw [hk]; push_cast; ring⟩, hhi, fun _ => hlo (by linarith)⟩
  | case2 r hle =>
    rw [praDown, if_neg hle]
    exact ⟨⟨0, by push_cast; ring⟩, by linarith [not_lt.mp hle], fun h => h⟩

/-- **C10 (counterexample).** At the input `-pi`, `principle_rad_angle`
returns `-pi` itself, which does not lie in the claimed half-open interval
`(-pi, pi]`: the returned value is not strictly greater than `-pi`. -/
theorem C10_cex :
    principle_rad_angle (-π) = -π ∧ ¬ (-π < principle_rad_angle (-π)) := by
  have hpi : (0:ℝ) < π := Real.pi_pos
  have h1 : praUp (-π) = -π := by
    rw [praUp, if_neg (by simp)]
  have h2 : principle_rad_angle (-π) = -π := by
    rw [principle_rad_angle, h1, praDown, if_neg (by simp; linarith)]
  exact ⟨h2, by rw [h2]; simp⟩

/-- **C10 (amended).** For every real `r`, `principle_rad_angle r`
terminates and returns a value that differs from `r` by an integer multiple
of `2*pi` and lies in the closed interval `[-pi, pi]`; the endpoint `-pi`
is attained (at `r = -pi`, see the counterexample), so the interval is
closed, not the half-open `(-pi, pi]` of the original claim. -/
theorem C10_amended (r : ℝ) :
    ∃ k : ℤ, principle_rad_angle r = r + 2 * π * k ∧
      -π ≤ principle_rad_angle r ∧ principle_rad_angle r ≤ π := by
  obtain ⟨⟨ku, hku⟩, hulo, _⟩ := praUp_spec r
  obtain ⟨⟨kd, hkd⟩, hdhi, hdlo⟩ := praDown_spec (praUp r)
  refine ⟨ku - kd, ?_, hdlo hulo, hdhi⟩
  rw [principle_rad_angle, hkd, hku]
  push_cast
  ring

/-! ## Geometry primitives (`geometry_base.py`)

`np.arctan2(y, x)` is embedded as the argument of the complex number
`x + y*i`, which has the same defining property (angle in `(-pi, pi]`,
measured counter-clockwise from the positive x-axis). -/

/-- `np.arctan2 y x`. -/
noncomputable def atan2 (y x : ℝ) : ℝ := Complex.arg ⟨x, y⟩

/-- `Line` (`geometry_base.py`): a directed straight segment given by its
two endpoints `_xy0`, `_xy1`. -/
structure Line where
  p0 : Pt
  p1 : Pt

/-- `Line.angle`: `np.arctan2(d[1], d[0])` for `d = _xy1 - _xy0`. -/
noncomputable def Line.angle (L : Line) : ℝ :=
  atan2 (L.p1.2 - L.p0.2) (L.p1.1 - L.p0.1)

/-- `Line.length`: Euclidean distance between the endpoints (this is what
`Plyline.__init__` computes for the two-node polyline underlying a `Line`). -/
noncomputable def Line.length (L : Line) : ℝ := hypot_p L.p0 L.p1

/-- `Line.XY(xy)` (`geometry_base.py`, lines 288-305): coordinates of the
point `xy` in the local frame of the line — translate by `-_xy0`, then
rotate by `-angle`:
`u,v = xy - _xy0; c,s = cos(angle), sin(angle); X,Y = u*c+v*s, v*c-u*s`. -/
noncomputable def Line.XY (L : Line) (xy : Pt) : ℝ × ℝ :=
  let u := xy.1 - L.p0.1
  let v := xy.2 - L.p0.2
  let c := Real.cos L.angle
  let s := Real.sin L.angle
  (u * c + v * s, v * c - u * s)

/-- `Plyline` (`geometry_base.py`): an ordered list of nodes.  The drawing
attributes (`label`, colors, ...) play no geometric role and only `label`
is kept. -/
structure Plyline where
  nodes : List Pt
  label : String

/-- `Plyline.segmentlength`: per-segment Euclidean lengths
(`np.sqrt(np.sum(diffs**2, 1))` over consecutive node differences). -/
noncomputable def Plyline.segmentlength (p : Plyline) : List ℝ :=
  List.zipWith hypot_p p.nodes p.nodes.tail

/-- `Plyline.length`: total length, `np.sum(self.segmentlength)`. -/
noncomputable def Plyline.length (p : Plyline) : ℝ :=
  p.segmentlength.sum

/-- `Plyline.snodes`: cumulative arc length at each node
(`np.hstack(([0], np.cumsum(segmentlength)))`). -/
noncomputable def Plyline.snodes (p : Plyline) : List ℝ :=
  0 :: (p.segmentlength.scanl (· + ·) 0).tail

/-- The hints bundle: the three fields of the argparse `Namespace` that the
section-line engine reads (`cmds.userline`, `cmds.userangle`,
`cmds.userangle_constraint`); `None` is `Option.none`. -/
structure Cmds where
  userline : Option (List Pt)
  userangle : Option ℝ
  userangle_constraint : Option ℝ

/-- A `PointSet`: the dictionary `d_xy` from well id to coordinate,
modelled as an association list in Python-dict insertion order. -/
abbrev PointDict := List (ℕ × Pt)

/-! ## Singleton handler (`singleton_section_line.py`) -/

/-- `singleton_section_line(d_xy, cmds)`: returns the key list, a one-node
`Plyline` at the single coordinate, and `None` for the projection lines
(no leader segments). -/
noncomputable def singleton_section_line (d : PointDict) (_cmds : Cmds) :
    List ℕ × Plyline × Option (List Line) :=
  (d.map Prod.fst, { nodes := d.map Prod.snd, label := "singleton" }, none)

/-- **C8 (confirmed).** Every 1-entry `PointSet` `{k: p}` returns the single
identifier as the ordering, a 1-node `Plyline` at that coordinate with
length 0, and no leader segments (the source returns `None` for the
projection-line list, embedded as `none`). -/
theorem C8_singleton (k : ℕ) (p : Pt) (cmds : Cmds) :
    (singleton_section_line [(k, p)] cmds).1 = [k] ∧
      (singleton_section_line [(k, p)] cmds).2.1.nodes = [p] ∧
      (singleton_section_line [(k, p)] cmds).2.1.length = 0 ∧
      (singleton_section_line [(k, p)] cmds).2.2 = none := by
  refine ⟨rfl, rfl, ?_, rfl⟩
  simp [singleton_section_line, Plyline.length, Plyline.segmentlength]

/-! ## Path smoother (`fence_line.py`, `fenceline_smooth` and scores)

The source indexes Python lists with possibly negative indices
(`score_swapE(-1,-2,-3, Q)`, `K[a], K[b] = K[b], K[a]` with `a, b` from the
returned swap pair), so indices are embedded as integers with Python's
negative-index semantics. -/

/-- Python list read `Q[i]` (negative `i` counts from the end). -/
def pyGet (q : List Pt) (i : ℤ) : Pt :=
  if i < 0 then q.getD ((q.length : ℤ) + i).toNat (0, 0)
  else q.getD i.toNat (0, 0)

/-- Python parallel swap `K[a], K[b] = K[b], K[a]`. -/
def pySwap {α : Type} (dflt : α) (K : List α) (a b : ℤ) : List α :=
  let ia := (if a < 0 then (K.length : ℤ) + a else a).toNat
  let ib := (if b < 0 then (K.length : ℤ) + b else b).toNat
  (K.set ia (K.getD ib dflt)).set ib (K.getD ia dflt)

/-- `score_swapM(a,b,c,d, d_xy)` (`fence_line.py`, lines 25-57): net change
`(ab + cd) - (ac + bd)` in total length from swapping `b` and `c` with `a`
and `d` fixed, plus the swap pair `(b, c)`. -/
noncomputable def score_swapM (a b c d : ℤ) (q : List Pt) : ℝ × (ℤ × ℤ) :=
  ((hypot_p (pyGet q a) (pyGet q b) + hypot_p (pyGet q c) (pyGet q d))
      - (hypot_p (pyGet q a) (pyGet q c) + hypot_p (pyGet q b) (pyGet q d)),
    (b, c))

/-- `score_swapE(b,c,d, d_xy)` (`fence_line.py`, lines 59-92): net change
`bd - cd` in total length from swapping end point `b` with `c` (`d` fixed),
plus the swap pair `(b, c)`. -/
noncomputable def score_swapE (b c d : ℤ) (q : List Pt) : ℝ × (ℤ × ℤ) :=
  (hypot_p (pyGet q b) (pyGet q d) - hypot_p (pyGet q c) (pyGet q d),
    (b, c))

/-- `d_xy[k]`: dictionary read. -/
def dictGet (d : PointDict) (k : ℕ) : Pt :=
  (d.lookup k).getD (0, 0)

/-- One candidate evaluation of the `for i in range(0, N-3)` sweep in
`fenceline_smooth` (lines 158-166): score the triple chosen for index `i`
against the tuple `Q` and keep it when it strictly beats the running
`bestdL`.  (The variable `best_dL = 1` set at the top of the sweep in the
source is dead — it is never read — and is omitted.) -/
noncomputable def sweepStep (q : List Pt) (N : ℕ)
    (st : ℝ × Option (ℤ × ℤ)) (i : ℕ) : ℝ × Option (ℤ × ℤ) :=
  let r :=
    if i = 0 then score_swapE 0 1 2 q
    else if i = N - 4 then score_swapE (-1) (-2) (-3) q
    else score_swapE i (i + 1) (i + 2) q
  if r.1 < st.1 then (r.1, some r.2) else st

/-- The `while bestdL < 0` loop of `fenceline_smooth` (lines 153-176),
faithful to the source: `bestdL` persists across sweeps, the scores are
always taken against the initial tuple `Q` (the source assigns the updated
tuple to the dead variable `T`, never back to `Q`), `icount` is incremented
after the sweep and the loop breaks once it exceeds 100. -/
noncomputable def smoothLoop (q : List Pt) (N : ℕ) (icount : ℕ)
    (K : List ℕ) (P : List Pt) (bestdL : ℝ) : List ℕ :=
  if bestdL < 0 then
    let st := (List.range (N - 3)).foldl (sweepStep q N) (bestdL, none)
    if icount + 1 > 100 then K
    else
      match st.2 with
      | some (a, b) =>
          smoothLoop q N (icount + 1) (pySwap 0 K a b) (pySwap (0, 0) P a b) st.1
      | none => K
  else K
termination_by 101 - icount
decreasing_by omega

/-- `fenceline_smooth(d_xy, ordered_wids)` (`fence_line.py`, lines 94-178). -/
noncomputable def fenceline_smooth (d : PointDict) (ordered : List ℕ) :
    List ℕ :=
  let N := d.length
  if N < 3 then ordered
  else
    let K := ordered
    let P := ordered.map (dictGet d)
    let Q := P
    if N = 3 then
      let dL1 := (score_swapE 0 1 2 Q).1
      let dL2 := (score_swapE 2 1 0 Q).1
      if dL1 < 0 ∧ dL1 < dL2 then pySwap 0 K 0 1
      else if dL2 < 0 then pySwap 0 K 1 2
      else K
    else smoothLoop Q N 0 K P (-1)

/-- Total length of the path visiting the points of `d` in the order `ks`
(the length of the `Plyline` through them, as built by `fenceline`). -/
noncomputable def path_length (d : PointDict) (ks : List ℕ) : ℝ :=
  Plyline.length { nodes := ks.map (dictGet d), label := "" }

/-- Distance between two points on the x-axis, for evaluating `hypot_p` at
concrete collinear inputs. -/
lemma hypot_x (x1 x2 v : ℝ) (hv : 0 ≤ v) (h : (x1 - x2) ^ 2 = v ^ 2) :
    hypot_p (x1, 0) (x2, 0) = v := by
  have : hypot_p (x1, 0) (x2, 0) = Real.sqrt (v ^ 2) := by
    simp only [hypot_p]
    rw [show (x1 - x2) ^ 2 + ((0:ℝ) - 0) ^ 2 = v ^ 2 by rw [← h]; ring]
  rw [this]
  exact Real.sqrt_sq hv

/-- A 6-point `PointSet` on the x-axis (the failing input for the path
smoother): ids 0..5 at x-coordinates 0, 1, 100, 2, 3, 4. -/
def d6 : PointDict :=
  [(0, ((0:ℝ), (0:ℝ))), (1, (1, 0)), (2, (100, 0)), (3, (2, 0)),
    (4, (3, 0)), (5, (4, 0))]

/-- The input ordering 0,1,2,3,4,5 for `d6`. -/
def ord6 : List ℕ := [0, 1, 2, 3, 4, 5]

/-- The coordinate tuple `Q` that `fenceline_smooth` scores against. -/
def Q6 : List Pt := ord6.map (dictGet d6)

lemma Q6_eq :
    Q6 = [((0:ℝ), (0:ℝ)), (1, 0), (100, 0), (2, 0), (3, 0), (4, 0)] := rfl

lemma pg0 : pyGet Q6 0 = ((0:ℝ), (0:ℝ)) := rfl
lemma pg1 : pyGet Q6 1 = ((1:ℝ), (0:ℝ)) := rfl
lemma pg2 : pyGet Q6 2 = ((100:ℝ), (0:ℝ)) := rfl
lemma pg3 : pyGet Q6 3 = ((2:ℝ), (0:ℝ)) := rfl
lemma pgm1 : pyGet Q6 (-1) = ((4:ℝ), (0:ℝ)) := rfl
lemma pgm2 : pyGet Q6 (-2) = ((3:ℝ), (0:ℝ)) := rfl
lemma pgm3 : pyGet Q6 (-3) = ((2:ℝ), (0:ℝ)) := rfl

lemma sE012 : (score_swapE 0 1 2 Q6).1 = 1 := by
  simp only [score_swapE, pg0, pg1, pg2]
  rw [hypot_x 0 100 100 (by norm_num) (by norm_num),
    hypot_x 1 100 99 (by norm_num) (by norm_num)]
  norm_num

lemma sE123 : (score_swapE 1 2 3 Q6).1 = -97 := by
  simp only [score_swapE, pg1, pg2, pg3]
  rw [hypot_x 1 2 1 (by norm_num) (by norm_num),
    hypot_x 100 2 98 (by norm_num) (by norm_num)]
  norm_num

lemma sEneg : (score_swapE (-1) (-2) (-3) Q6).1 = 1 := by
  simp only [score_swapE, pgm1, pgm2, pgm3]
  rw [hypot_x 4 2 2 (by norm_num) (by norm_num),
    hypot_x 3 2 1 (by norm_num) (by norm_num)]
  norm_num

lemma sE012' : score_swapE 0 1 2 Q6 = (1, (0, 1)) :=
  Prod.ext_iff.mpr ⟨sE012, rfl⟩

lemma sE123' : score_swapE 1 2 3 Q6 = (-97, (1, 2)) :=
  Prod.ext_iff.mpr ⟨sE123, rfl⟩

lemma sEneg' : score_swapE (-1) (-2) (-3) Q6 = (1, (-1, -2)) :=
  Prod.ext_iff.mpr ⟨sEneg, rfl⟩

lemma st0 : sweepStep Q6 6 (-1, none) 0 = (-1, none) := by
  simp only [sweepStep]
  norm_num [sE012']

lemma st1 : sweepStep Q6 6 (-1, none) 1 = (-97, some (1, 2)) := by
  simp only [sweepStep]
  norm_num [sE123']

lemma st2 : sweepStep Q6 6 (-97, some (1, 2)) 2 = (-97, some (1, 2)) := by
  simp only [sweepStep]
  norm_num [sEneg']

lemma st0b : sweepStep Q6 6 (-97, none) 0 = (-97, none) := by
  simp only [sweepStep]
  norm_num [sE012']

lemma st1b : sweepStep Q6 6 (-97, none) 1 = (-97, none) := by
  simp only [sweepStep]
  norm_num [sE123']

lemma st2b : sweepStep Q6 6 (-97, none) 2 = (-97, none) := by
  simp only [sweepStep]
  norm_num [sEneg']

lemma foldA :
    (List.range (6 - 3)).foldl (sweepStep Q6 6) (-1, none) =
      (-97, some (1, 2)) := by
  rw [show (6:ℕ) - 3 = 3 from rfl, show List.range 3 = [0, 1, 2] from rfl,
    List.foldl_cons, st0, List.foldl_cons, st1, List.foldl_cons, st2,
    List.foldl_nil]

lemma foldB :
    (List.range (6 - 3)).foldl (sweepStep Q6 6) (-97, none) =
      (-97, none) := by
  rw [show (6:ℕ) - 3 = 3 from rfl, show List.range 3 = [0, 1, 2] from rfl,
    List.foldl_cons, st0b, List.foldl_cons, st1b, List.foldl_cons, st2b,
    List.foldl_nil]

lemma loop1 (K : List ℕ) (P : List Pt) :
    smoothLoop Q6 6 0 K P (-1) =
      smoothLoop Q6 6 1 (pySwap 0 K 1 2) (pySwap (0, 0) P 1 2) (-97) := by
  rw [smoothLoop, if_pos (show (-1:ℝ) < 0 by norm_num)]
  simp only [foldA]
  norm_num

lemma loop2 (K : List ℕ) (P : List Pt) :
    smoothLoop Q6 6 1 K P (-97) = K := by
  rw [smoothLoop, if_pos (show (-97:ℝ) < 0 by norm_num)]
  simp only [foldB]
  norm_num

lemma smooth6 : fenceline_smooth d6 ord6 = [0, 2, 1, 3, 4, 5] := by
  rw [fenceline_smooth]
  have hn : d6.length = 6 := rfl
  simp only [hn]
  rw [if_neg (by norm_num), if_neg (by norm_num)]
  rw [show ord6.map (dictGet d6) = Q6 from rfl]
  rw [loop1, loop2]
  rfl

lemma pl_orig : path_length d6 ord6 = 200 := by
  show (List.zipWith hypot_p Q6 Q6.tail).sum = 200
  rw [Q6_eq]
  simp only [List.tail_cons, List.zipWith_cons_cons, List.zipWith_nil_right,
    List.sum_cons, List.sum_nil]
  rw [hypot_x 0 1 1 (by norm_num) (by norm_num),
    hypot_x 1 100 99 (by norm_num) (by norm_num),
    hypot_x 100 2 98 (by norm_num) (by norm_num),
    hypot_x 2 3 1 (by norm_num) (by norm_num),
    hypot_x 3 4 1 (by norm_num) (by norm_num)]
  norm_num

lemma pl_new : path_length d6 [0, 2, 1, 3, 4, 5] = 202 := by
  show (List.zipWith hypot_p ([0, 2, 1, 3, 4, 5].map (dictGet d6))
    (([0, 2, 1, 3, 4, 5].map (dictGet d6)).tail)).sum = 202
  rw [show ([0, 2, 1, 3, 4, 5].map (dictGet d6)) =
      [((0:ℝ), (0:ℝ)), (100, 0), (1, 0), (2, 0), (3, 0), (4, 0)] from rfl]
  simp only [List.tail_cons, List.zipWith_cons_cons, List.zipWith_nil_right,
    List.sum_cons, List.sum_nil]
  rw [hypot_x 0 100 100 (by norm_num) (by norm_num),
    hypot_x 100 1 99 (by norm_num) (by norm_num),
    hypot_x 1 2 1 (by norm_num) (by norm_num),
    hypot_x 2 3 1 (by norm_num) (by norm_num),
    hypot_x 3 4 1 (by norm_num) (by norm_num)]
  norm_num

/-- **C2 (code bug, evaluation).** On the 6-point input `d6` with initial
ordering `[0,1,2,3,4,5]` (total path length 200), `fenceline_smooth`
returns the ordering `[0,2,1,3,4,5]` whose total path length is 202: the
smoother *increases* the total length.  (The sweep scores interior triples
with the end-point formula `score_swapE`, which ignores the edge to the
preceding point, and the stale tuple `Q` is never refreshed, so the single
applied swap is accepted on a wrong delta.)  This contradicts both the
claim and the smoother's own docstring ("minimize total length", "sweeps
continue until no length reduction is seen"). -/
theorem C2_smoothing_increases_length :
    fenceline_smooth d6 ord6 = [0, 2, 1, 3, 4, 5] ∧
      path_length d6 ord6 = 200 ∧
      path_length d6 (fenceline_smooth d6 ord6) = 202 ∧
      path_length d6 ord6 < path_length d6 (fenceline_smooth d6 ord6) := by
  refine ⟨smooth6, pl_orig, ?_, ?_⟩
  · rw [smooth6]; exact pl_new
  · rw [smooth6, pl_orig, pl_new]; norm_num

/-- **C5 (code bug, evaluation).** In the general-case sweep on `d6`, the
candidate evaluated for the true interior triple `(a,b,c,d) =
((0,0),(1,0),(100,0),(2,0))` at sweep index `i = 1` is
`score_swapE(1,2,3)` `= |b-d| - |c-d| = -97`, not the four-point delta
`(|a-b| + |c-d|) - (|a-c| + |b-d|) = -2` computed by the (never called)
`score_swapM`; the swap `(b,c)` is nevertheless selected with the wrong
delta.  The sweep also accepts a swap only when the delta beats the
running `bestdL` (initialised to `-1`), not merely when it is negative. -/
theorem C5_sweep_uses_endpoint_formula :
    (score_swapE 1 2 3 Q6).1 = -97 ∧
      sweepStep Q6 6 (-1, none) 1 = (-97, some (1, 2)) ∧
      (score_swapM 0 1 2 3 Q6).1 = -2 ∧
      ((-97 : ℝ)) ≠ -2 := by
  refine ⟨sE123, st1, ?_, by norm_num⟩
  simp only [score_swapM, pg0, pg1, pg2, pg3]
  rw [hypot_x 0 1 1 (by norm_num) (by norm_num),
    hypot_x 100 2 98 (by norm_num) (by norm_num),
    hypot_x 0 100 100 (by norm_num) (by norm_num),
    hypot_x 1 2 1 (by norm_num) (by norm_num)]
  norm_num

/-! ## Best-fit line solver (`projected_line.py`) -/

/-- `rotate(x, y, angle)` (`projected_line.py`, lines 18-36), elementwise on
coordinate vectors: `X = x*c - y*s`, `Y = y*c + x*s`. -/
noncomputable def rotateL (x y : List ℝ) (angle : ℝ) : List ℝ × List ℝ :=
  (List.zipWith (fun a b => a * Real.cos angle - b * Real.sin angle) x y,
    List.zipWith (fun b a => b * Real.cos angle + a * Real.sin angle) y x)

/-- `np.polyfit(X, Y, 1)`: degree-1 ordinary least squares, returning
`(slope, intercept)`.  The library routine solves the normal equations of
the Vandermonde system; it is singular — the source's `except` branch for
"a vertical line" — exactly when all `X` values coincide, i.e. when the
centred second moment `sxx` vanishes. -/
noncomputable def polyfit1 (X Y : List ℝ) : Option (ℝ × ℝ) :=
  let xbar := X.sum / X.length
  let ybar := Y.sum / Y.length
  let sxx := (X.map (fun v => (v - xbar) ^ 2)).sum
  let sxy := (List.zipWith (fun a b => (a - xbar) * (b - ybar)) X Y).sum
  if sxx = 0 then none
  else some (sxy / sxx, ybar - sxy / sxx * xbar)

/-- The `while istep < 20` loop of `find_best_projected_ordering`
(`projected_line.py`, lines 218-250).  State: `istep`, `errcount`, the
accumulated rotation `theta` and the alternating `nudge`.  A failed fit
nudges `theta` and retries without advancing `istep` (`continue`), giving
up after the fifth consecutive error; a successful fit accumulates
`theta1 = arctan2(f(1), 1)` and stops on the constraint boundary (clamping)
or when `|theta1|` drops below `tol`. -/
noncomputable def bfLoop (X0 Y0 : List ℝ) (C tol : ℝ) :
    ℕ → ℕ → ℝ → ℝ → ℝ := fun istep errcount theta nudge =>
  if istep < 20 then
    match polyfit1 (rotateL X0 Y0 (-theta)).1 (rotateL X0 Y0 (-theta)).2 with
    | none =>
        if errcount > 4 then theta
        else bfLoop X0 Y0 C tol istep (errcount + 1) (theta + nudge) (-nudge)
    | some (slope, intercept) =>
        let theta1 := atan2 (slope + intercept) 1
        let θ := theta + theta1
        if θ ≤ -C then -C
        else if θ ≥ C then C
        else if |theta1| < tol then θ
        else bfLoop X0 Y0 C tol (istep + 1) errcount θ nudge
  else theta
termination_by istep errcount => (20 - istep) + (6 - errcount)
decreasing_by
  · omega
  · omega

/-- `np.argsort(X)`: the list of indices of `X` sorted by value.  NumPy's
default quicksort leaves the relative order of tied values unspecified;
the embedding fixes the stable order (ties by original index), and
theorems that depend on the order of ties carry a distinctness
hypothesis. -/
noncomputable def argsortIdx (X : List ℝ) : List ℕ :=
  (X.enum.insertionSort
      (fun p q => p.2 < q.2 ∨ (p.2 = q.2 ∧ p.1 ≤ q.1))).map Prod.fst

/-- `find_best_projected_ordering(d_xy, cmds)` (`projected_line.py`,
lines 130-257): iterative constrained best-fit; returns the ordering of
the ids by final rotated x-coordinate and the final angle
`theta + angle0`. -/
noncomputable def find_best_projected_ordering (d : PointDict) (cmds : Cmds) :
    List ℕ × ℝ :=
  let tol := π / 180
  let angle0 := match cmds.userangle with
    | none => 0
    | some a => a
  let angle_constraint := match cmds.userangle with
    | none => 0.99 * (π / 2)
    | some _ => match cmds.userangle_constraint with
      | none => π / 2
      | some c => c
  let x := d.map (fun kv => kv.2.1)
  let y := d.map (fun kv => kv.2.2)
  let wid := d.map Prod.fst
  let xc := x.sum / x.length
  let yc := y.sum / y.length
  let X := x.map (· + -xc)
  let Y := y.map (· + -yc)
  let XY0 := rotateL X Y (-angle0)
  let theta := bfLoop XY0.1 XY0.2 angle_constraint tol 1 0 0 0.01
  let XF := (rotateL XY0.1 XY0.2 (-theta)).1
  ((argsortIdx XF).map (fun i => wid.getD i 0), theta + angle0)

/-! ## User-guideline mapper (`fence_line.py`, `find_fenceline_with_userline`) -/

/-- The consecutive directed segments of the guideline
(`Lines = [Line((xy0,xy1)) for xy0,xy1 in zip(userline[:-1], userline[1:])]`). -/
def mkLines (u : List Pt) : List Line :=
  List.zipWith Line.mk u u.tail

/-- `L.s0` for segment `j`: cumulative guideline length before segment `j`
(the loop `L.s0 = d; L.s1 = d + L.length; d += L.length`; `L.s1` is
`seg_s0 ls j + (ls.get j).length`). -/
noncomputable def seg_s0 (ls : List Line) (j : ℕ) : ℝ :=
  ((ls.take j).map Line.length).sum

/-- The `knearesti` scan (`fence_line.py`, lines 288-297): index of the
guideline waypoint nearest to `a`, first index winning ties
(`if d < dmin`). -/
noncomputable def knearest (u : List Pt) (a : Pt) : ℕ :=
  (u.enum.foldl
    (fun (st : ℕ × Option ℝ) ib =>
      match st.2 with
      | none => (ib.1, some (hypot_p a ib.2))
      | some dmin =>
          if hypot_p a ib.2 < dmin then (ib.1, some (hypot_p a ib.2)) else st)
    (0, none)).1

/-- The left (entering) adjacent segment's flag and cumulative coordinate
(`fence_line.py`, lines 307-317): `none` models the `except` branch (the
`assert (i-1) >= 0` fails for `i = 0`); otherwise
`Xl = L.XY(a).X + L.s0` and
`rl = (L.s0 <= Xl <= L.s1) or (i == 0 and Xl < L.s1)`. -/
noncomputable def leftProj (ls : List Line) (i : ℕ) (a : Pt) :
    Option (Bool × ℝ) :=
  if i = 0 then none
  else
    match ls.get? (i - 1) with
    | none => none
    | some L =>
        let s0 := seg_s0 ls (i - 1)
        let s1 := s0 + L.length
        let Xl := (L.XY a).1 + s0
        some (decide ((s0 ≤ Xl ∧ Xl ≤ s1) ∨ (i = 0 ∧ Xl < s1)), Xl)

/-- The right (leaving) adjacent segment's flag and cumulative coordinate
(`fence_line.py`, lines 319-328): `none` models the `except` branch
(`Lines[i]` raises `IndexError` when the nearest waypoint is the last one);
otherwise `Xr = L.XY(a).X + L.s0` and
`rr = (L.s0 <= Xr <= L.s1) or (i == n-1 and Xr > L.s0)`. -/
noncomputable def rightProj (ls : List Line) (n i : ℕ) (a : Pt) :
    Option (Bool × ℝ) :=
  match ls.get? i with
  | none => none
  | some L =>
      let s0 := seg_s0 ls i
      let s1 := s0 + L.length
      let Xr := (L.XY a).1 + s0
      some (decide ((s0 ≤ Xr ∧ Xr ≤ s1) ∨ (i = n - 1 ∧ Xr > s0)), Xr)

/-- The resolution cascade (`fence_line.py`, lines 337-347), with Python
truthiness: `None` and the float `0.0` are both falsy, so `rl`/`rr` are
truthy only when present-and-`True`, and `Xl`/`Xr` only when
present-and-nonzero.  `none` is the `raise ValueError`. -/
noncomputable def resolvePos (left right : Option (Bool × ℝ)) : Option ℝ :=
  let rl : Bool := (left.map Prod.fst).getD false
  let rr : Bool := (right.map Prod.fst).getD false
  let xl : ℝ := (left.map Prod.snd).getD 0
  let xr : ℝ := (right.map Prod.snd).getD 0
  -- Python float truthiness: an absent (`None`) coordinate is represented
  -- by the default `0`, so "present and nonzero" is exactly "nonzero".
  let xlT : Bool := decide (xl ≠ 0)
  let xrT : Bool := decide (xr ≠ 0)
  if rl && !rr then some xl
  else if !rl && rr then some xr
  else if xlT && xrT then some ((xl + xr) / 2)
  else if xlT then some xl
  else if xrT then some xr
  else none

/-- `kposition[k]` for one point: project onto the one or two guideline
segments adjacent to the nearest waypoint and resolve. -/
noncomputable def mapPoint (u : List Pt) (a : Pt) : Option ℝ :=
  let ls := mkLines u
  let i := knearest u a
  resolvePos (leftProj ls i a) (rightProj ls ls.length i a)

/-- The `kposition` dictionary over all points, in insertion order;
`none` when any point raises `ValueError`. -/
noncomputable def kpositions (u : List Pt) : PointDict → Option (List (ℕ × ℝ))
  | [] => some []
  | (k, a) :: rest =>
      match mapPoint u a, kpositions u rest with
      | some x, some l => some ((k, x) :: l)
      | _, _ => none

/-- `rposition = {v: k for k, v in kposition.items()}`: a Python dict built
by successive insertion, so a later key with the same position value
overwrites the earlier one (this is where tied positions lose points). -/
noncomputable def rposition (kpos : List (ℕ × ℝ)) : List (ℝ × ℕ) :=
  kpos.foldl
    (fun acc kv =>
      if acc.any (fun p => decide (p.1 = kv.2)) then
        acc.map (fun p => if p.1 = kv.2 then (p.1, kv.1) else p)
      else acc ++ [(kv.2, kv.1)])
    []

/-- `find_fenceline_with_userline(d_xy, cmds)` (`fence_line.py`,
lines 180-353): map every point to a cumulative guideline coordinate,
invert the dictionary, and read the ids off in sorted-coordinate order.
`none` is the raised `ValueError` (or a missing userline, on which the
source would crash; callers guard on truthiness). -/
noncomputable def find_fenceline_with_userline (d : PointDict) (cmds : Cmds) :
    Option (List ℕ) :=
  match cmds.userline with
  | none => none
  | some u =>
      match kpositions u d with
      | none => none
      | some kpos =>
          some (((rposition kpos).insertionSort (fun p q => p.1 ≤ q.1)).map
            Prod.snd)

/-- Truthiness of `cmds.userline` (`if cmds.userline:`). -/
def Cmds.userlineTruthy (c : Cmds) : Bool :=
  match c.userline with
  | none => false
  | some u => !u.isEmpty

/-! ## `fenceline` (`fence_line.py`, lines 355-438) -/

/-- `fenceline(d_xy, cmds)`: singleton passthrough for one point; with a
(truthy) userline, the guideline mapper, smoothing only when
`len(ordered_wids) > 5 and len(ordered_wids)/len(cmds.userline) > 2`;
otherwise the best-fit ordering always smoothed.  Returns the ordering,
the `Plyline` through the ordered points, and `None` for projection
lines. -/
noncomputable def fenceline (d : PointDict) (cmds : Cmds) :
    Option (List ℕ × Plyline × Option (List Line)) :=
  if d.length = 1 then some (singleton_section_line d cmds)
  else if cmds.userlineTruthy then
    match find_fenceline_with_userline d cmds with
    | none => none
    | some o =>
        let o' :=
          if 5 < o.length ∧
              2 < (o.length : ℝ) / ((cmds.userline.getD []).length : ℝ) then
            fenceline_smooth d o
          else o
        some (o', { nodes := o'.map (dictGet d), label := "fenceline" }, none)
  else
    let o := fenceline_smooth d (find_best_projected_ordering d cmds).1
    some (o, { nodes := o.map (dictGet d), label := "fenceline" }, none)

/-! ## Projected mode (`projected_line.py`, lines 55-128 and 259-362) -/

/-- `projected_section_line_given(d_xy, cmds)`: anchor line from the first
two userline nodes, else from `userangle` through the centroid, else the
`AttributeError` (`none`); project, order by local `U`, build the section
`Plyline` and one normal (leader) per well. -/
noncomputable def projected_section_line_given (d : PointDict) (cmds : Cmds) :
    Option (List ℕ × Plyline × Option (List Line)) :=
  let x := d.map (fun kv => kv.2.1)
  let y := d.map (fun kv => kv.2.2)
  let wid := d.map Prod.fst
  let sel : Option (ℝ × Pt) :=
    if cmds.userlineTruthy then
      let u := cmds.userline.getD []
      let L : Line := ⟨u.getD 0 (0, 0), u.getD 1 (0, 0)⟩
      some (L.angle, ((L.p0.1 + L.p1.1) / 2, (L.p0.2 + L.p1.2) / 2))
    else
      match cmds.userangle with
      | some a => some (a, (x.sum / x.length, y.sum / y.length))
      | none => none
  match sel with
  | none => none
  | some (alpha, xyc) =>
      let X := x.map (· + -xyc.1)
      let Y := y.map (· + -xyc.2)
      let UV := rotateL X Y (-alpha)
      let XpYp := rotateL UV.1 (UV.2.map (fun v => v * 0)) alpha
      let xyp := (XpYp.1.map (· + xyc.1)).zip (XpYp.2.map (· + xyc.2))
      let psort := argsortIdx UV.1
      let ordered := psort.map (fun i => wid.getD i 0)
      let xyps := psort.map (fun i => xyp.getD i (0, 0))
      let normals := List.zipWith (fun w p => Line.mk (dictGet d w) p)
        ordered xyps
      some (ordered, { nodes := xyps, label := "sectionline" }, some normals)

/-- `projected_section_line(d_xy, cmds)` (`projected_line.py`,
lines 55-128).  When no userline is given the source *assigns*
`cmds.userangle = userangle` before delegating — the mutated namespace is
returned as the second component so that the effect on the caller's `cmds`
is part of the model. -/
noncomputable def projected_section_line (d : PointDict) (cmds : Cmds) :
    Option (List ℕ × Plyline × Option (List Line)) × Cmds :=
  if d.length = 1 then (some (singleton_section_line d cmds), cmds)
  else
    let cmds' := match cmds.userline with
      | none =>
          { cmds with userangle := some (find_best_projected_ordering d cmds).2 }
      | some _ => cmds
    (projected_section_line_given d cmds', cmds')

/-! ## Evaluation helpers for `atan2`, `Line.XY` and `hypot_p` -/

lemma hypot_eval (a b : Pt) (v : ℝ) (hv : 0 ≤ v)
    (h : (a.1 - b.1) ^ 2 + (a.2 - b.2) ^ 2 = v ^ 2) : hypot_p a b = v := by
  unfold hypot_p
  rw [h]
  exact Real.sqrt_sq hv

lemma atan2_zero_pos (x : ℝ) (hx : 0 ≤ x) : atan2 0 x = 0 := by
  unfold atan2
  rw [show (⟨x, 0⟩ : ℂ) = (x : ℂ) by apply Complex.ext <;> simp]
  exact Complex.arg_ofReal_of_nonneg hx

lemma atan2_pos_y (c : ℝ) (hc : 0 < c) : atan2 c 0 = π / 2 := by
  unfold atan2
  rw [show (⟨0, c⟩ : ℂ) = (c : ℂ) * Complex.I by apply Complex.ext <;> simp]
  rw [Complex.arg_real_mul _ hc, Complex.arg_I]

lemma atan2_one_arctan (yv : ℝ) : atan2 yv 1 = Real.arctan yv := by
  unfold atan2
  rw [Complex.arg_of_re_nonneg (by norm_num : (0:ℝ) ≤ (⟨1, yv⟩ : ℂ).re),
    Real.arctan_eq_arcsin]
  congr 1
  show yv / Complex.abs ⟨1, yv⟩ = yv / Real.sqrt (1 + yv ^ 2)
  rw [Complex.abs_apply, Complex.normSq_mk]
  norm_num
  ring_nf

lemma XY_horizontal (x0 y0 x1 : ℝ) (h : x0 < x1) (a : Pt) :
    Line.XY ⟨(x0, y0), (x1, y0)⟩ a = (a.1 - x0, a.2 - y0) := by
  have hang : Line.angle ⟨(x0, y0), (x1, y0)⟩ = 0 := by
    show atan2 (y0 - y0) (x1 - x0) = 0
    rw [show y0 - y0 = (0:ℝ) by ring]
    exact atan2_zero_pos _ (by linarith)
  unfold Line.XY
  rw [hang]
  simp

lemma XY_vertical (x0 y0 y1 : ℝ) (h : y0 < y1) (a : Pt) :
    Line.XY ⟨(x0, y0), (x0, y1)⟩ a = (a.2 - y0, -(a.1 - x0)) := by
  have hang : Line.angle ⟨(x0, y0), (x0, y1)⟩ = π / 2 := by
    show atan2 (y1 - y0) (x0 - x0) = π / 2
    rw [show x0 - x0 = (0:ℝ) by ring]
    exact atan2_pos_y _ (by linarith)
  unfold Line.XY
  rw [hang]
  simp [Real.cos_pi_div_two, Real.sin_pi_div_two]

/-! ## C1: loss of tied points in the user-guideline mapper -/

/-- Two wells symmetric about a horizontal guideline: both resolve to the
same cumulative coordinate `1`. -/
def uC1 : List Pt := [(0, 0), (10, 0)]

def dC1 : PointDict := [(1, ((1:ℝ), (1:ℝ))), (2, (1, -1))]

def cmdsC1 : Cmds := ⟨some uC1, none, none⟩

lemma knearest_uC1 (a : Pt) (h : ¬ hypot_p a (10, 0) < hypot_p a (0, 0)) :
    knearest uC1 a = 0 := by
  unfold knearest
  rw [show uC1.enum = [(0, ((0:ℝ), (0:ℝ))), (1, ((10:ℝ), (0:ℝ)))] from rfl]
  simp only [List.foldl_cons, List.foldl_nil]
  rw [if_neg h]

lemma mapPoint_uC1 (a : Pt) (hnear : ¬ hypot_p a (10, 0) < hypot_p a (0, 0))
    (h0 : 0 ≤ a.1) (h10 : a.1 ≤ 10) :
    mapPoint uC1 a = some a.1 := by
  have hlen : Line.length ⟨((0:ℝ), (0:ℝ)), ((10:ℝ), (0:ℝ))⟩ = 10 := by
    unfold Line.length
    exact hypot_eval _ _ 10 (by norm_num) (by norm_num)
  have hright : rightProj (mkLines uC1) (mkLines uC1).length 0 a
      = some (true, a.1) := by
    unfold rightProj
    rw [show (mkLines uC1).get? 0 =
        some ⟨((0:ℝ), (0:ℝ)), ((10:ℝ), (0:ℝ))⟩ from rfl]
    simp only [seg_s0, List.take_zero, List.map_nil, List.sum_nil]
    rw [XY_horizontal 0 0 10 (by norm_num) a, hlen]
    norm_num
    exact Or.inl ⟨h0, h10⟩
  have hleft : leftProj (mkLines uC1) 0 a = none := rfl
  simp only [mapPoint]
  rw [knearest_uC1 a hnear, hleft, hright]
  simp [resolvePos]

lemma mapPoint_dC1_w1 : mapPoint uC1 ((1:ℝ), (1:ℝ)) = some 1 := by
  apply mapPoint_uC1 _ _ (by norm_num) (by norm_num)
  rw [hypot_eval ((1:ℝ), (1:ℝ)) (10, 0) (Real.sqrt 82) (Real.sqrt_nonneg _)
      (by rw [Real.sq_sqrt (by norm_num : (0:ℝ) ≤ 82)]; norm_num),
    hypot_eval ((1:ℝ), (1:ℝ)) (0, 0) (Real.sqrt 2) (Real.sqrt_nonneg _)
      (by rw [Real.sq_sqrt (by norm_num : (0:ℝ) ≤ 2)]; norm_num)]
  exact not_lt.mpr (Real.sqrt_le_sqrt (by norm_num))

lemma mapPoint_dC1_w2 : mapPoint uC1 ((1:ℝ), (-1:ℝ)) = some 1 := by
  apply mapPoint_uC1 _ _ (by norm_num) (by norm_num)
  rw [hypot_eval ((1:ℝ), (-1:ℝ)) (10, 0) (Real.sqrt 82) (Real.sqrt_nonneg _)
      (by rw [Real.sq_sqrt (by norm_num : (0:ℝ) ≤ 82)]; norm_num),
    hypot_eval ((1:ℝ), (-1:ℝ)) (0, 0) (Real.sqrt 2) (Real.sqrt_nonneg _)
      (by rw [Real.sq_sqrt (by norm_num : (0:ℝ) ≤ 2)]; norm_num)]
  exact not_lt.mpr (Real.sqrt_le_sqrt (by norm_num))

lemma ffwu_dC1 : find_fenceline_with_userline dC1 cmdsC1 = some [2] := by
  have hkp : kpositions uC1 dC1 = some [(1, 1), (2, 1)] := by
    simp only [dC1, kpositions, mapPoint_dC1_w1, mapPoint_dC1_w2]
  have hrp : rposition [(1, 1), (2, 1)] = [((1:ℝ), (2:ℕ))] := by
    unfold rposition
    simp only [List.foldl_cons, List.foldl_nil, List.any_nil,
      Bool.false_eq_true, if_false, List.nil_append, List.any_cons,
      List.map_cons, List.map_nil]
    norm_num
  unfold find_fenceline_with_userline
  rw [show cmdsC1.userline = some uC1 from rfl]
  simp only []
  rw [hkp]
  simp only []
  rw [hrp]
  rfl

/-- **C1 (code bug, evaluation).** With the guideline `(0,0)-(10,0)` and the
two wells `1:(1,1)` and `2:(1,-1)` (both projecting to cumulative
coordinate `1`), the dictionary inversion
`rposition = {v: k for k, v in kposition.items()}` keeps only the later
well: the returned ordering is `[2]`, so well `1` is silently lost and the
output is not a permutation of the input identifiers. -/
theorem C1_permutation_lost :
    find_fenceline_with_userline dC1 cmdsC1 = some [2] ∧
      (1 : ℕ) ∈ dC1.map Prod.fst ∧ (1 : ℕ) ∉ [2] ∧
      (fenceline dC1 cmdsC1).map (fun r => r.1) = some [2] := by
  refine ⟨ffwu_dC1, by norm_num [dC1], by norm_num, ?_⟩
  unfold fenceline
  rw [if_neg (by norm_num [dC1] : ¬ dC1.length = 1)]
  rw [show cmdsC1.userlineTruthy = true from rfl]
  rw [if_pos rfl]
  rw [ffwu_dC1]
  simp only []
  rw [if_neg (by norm_num)]
  rfl

/-! ## C6: resolution policy of the user-guideline mapper -/

/-- Guideline with a right-angle corner at `(1,0)`. -/
def uC6 : List Pt := [(0, 0), (1, 0), (1, 1)]

/-- A point in the wedge outside the corner: nearest waypoint is the corner,
and its projection is valid on neither adjacent segment. -/
noncomputable def aC6 : Pt := ((8/5 : ℝ), (-3/10 : ℝ))

lemma knearest_uC6 : knearest uC6 aC6 = 1 := by
  have h01 : hypot_p aC6 (1, 0) < hypot_p aC6 (0, 0) := by
    rw [hypot_eval aC6 (1, 0) (Real.sqrt (45/100)) (Real.sqrt_nonneg _)
        (by rw [Real.sq_sqrt (by norm_num : (0:ℝ) ≤ 45/100)]; norm_num [aC6]),
      hypot_eval aC6 (0, 0) (Real.sqrt (265/100)) (Real.sqrt_nonneg _)
        (by rw [Real.sq_sqrt (by norm_num : (0:ℝ) ≤ 265/100)]; norm_num [aC6])]
    exact Real.sqrt_lt_sqrt (by norm_num) (by norm_num)
  have h12 : ¬ hypot_p aC6 (1, 1) < hypot_p aC6 (1, 0) := by
    rw [hypot_eval aC6 (1, 1) (Real.sqrt (205/100)) (Real.sqrt_nonneg _)
        (by rw [Real.sq_sqrt (by norm_num : (0:ℝ) ≤ 205/100)]; norm_num [aC6]),
      hypot_eval aC6 (1, 0) (Real.sqrt (45/100)) (Real.sqrt_nonneg _)
        (by rw [Real.sq_sqrt (by norm_num : (0:ℝ) ≤ 45/100)]; norm_num [aC6])]
    exact not_lt.mpr (Real.sqrt_le_sqrt (by norm_num))
  unfold knearest
  rw [show uC6.enum = [(0, ((0:ℝ), (0:ℝ))), (1, ((1:ℝ), (0:ℝ))),
      (2, ((1:ℝ), (1:ℝ)))] from rfl]
  simp only [List.foldl_cons, List.foldl_nil]
  rw [if_pos h01]
  simp only []
  rw [if_neg h12]

lemma left_uC6 : leftProj (mkLines uC6) 1 aC6 = some (false, 8/5) := by
  unfold leftProj
  rw [if_neg (by norm_num)]
  rw [show (mkLines uC6).get? (1 - 1) =
      some ⟨((0:ℝ), (0:ℝ)), ((1:ℝ), (0:ℝ))⟩ from rfl]
  simp only [seg_s0, List.take_zero, List.map_nil, List.sum_nil]
  rw [XY_horizontal 0 0 1 (by norm_num) aC6]
  have hlen : Line.length ⟨((0:ℝ), (0:ℝ)), ((1:ℝ), (0:ℝ))⟩ = 1 := by
    unfold Line.length
    exact hypot_eval _ _ 1 (by norm_num) (by norm_num)
  rw [hlen]
  norm_num [aC6]

lemma right_uC6 :
    rightProj (mkLines uC6) (mkLines uC6).length 1 aC6
      = some (false, 7/10) := by
  unfold rightProj
  rw [show (mkLines uC6).get? 1 =
      some ⟨((1:ℝ), (0:ℝ)), ((1:ℝ), (1:ℝ))⟩ from rfl]
  have hs0 : seg_s0 (mkLines uC6) 1 = 1 := by
    unfold seg_s0
    rw [show (mkLines uC6).take 1 =
        [⟨((0:ℝ), (0:ℝ)), ((1:ℝ), (0:ℝ))⟩] from rfl]
    simp only [List.map_cons, List.map_nil, List.sum_cons, List.sum_nil]
    unfold Line.length
    rw [hypot_eval _ _ 1 (by norm_num) (by norm_num)]
    norm_num
  rw [hs0]
  simp only []
  rw [XY_vertical 1 0 1 (by norm_num) aC6]
  have hlen : Line.length ⟨((1:ℝ), (0:ℝ)), ((1:ℝ), (1:ℝ))⟩ = 1 := by
    unfold Line.length
    exact hypot_eval _ _ 1 (by norm_num) (by norm_num)
  rw [hlen]
  rw [show (mkLines uC6).length = 2 from rfl]
  norm_num [aC6]

/-- **C6 (counterexample).** The point `aC6 = (1.6, -0.3)` near the corner
of the guideline `uC6` is valid on *neither* adjacent segment (both flags
are `False`), both numeric projections exist (cumulative coordinates `1.6`
and `0.7`), and the mapper resolves it — but to the *average* `1.15`,
which is not "any available projection's coordinate" as the claim states
(`1.15` is neither `1.6` nor `0.7`). -/
theorem C6_cex :
    leftProj (mkLines uC6) (knearest uC6 aC6) aC6 = some (false, 8/5) ∧
      rightProj (mkLines uC6) (mkLines uC6).length (knearest uC6 aC6) aC6
        = some (false, 7/10) ∧
      mapPoint uC6 aC6 = some (23/20) ∧
      (23/20 : ℝ) ≠ 8/5 ∧ (23/20 : ℝ) ≠ 7/10 := by
  refine ⟨by rw [knearest_uC6]; exact left_uC6,
    by rw [knearest_uC6]; exact right_uC6, ?_, by norm_num, by norm_num⟩
  simp only [mapPoint]
  rw [knearest_uC6, left_uC6, right_uC6]
  unfold resolvePos
  norm_num

/-- **C6 (amended).** The resolution cascade of the mapper, with Python
truthiness made explicit: a point fails exactly when its two validity
flags agree (both falsy or both `True`) and each adjacent cumulative
projection is absent or exactly `0`; a point valid on exactly one segment
gets that segment's coordinate; a point whose two projections are both
numeric and nonzero and whose flags agree (valid on both, or on neither)
gets the *average* of the two coordinates. -/
theorem C6_amended (left right : Option (Bool × ℝ)) :
    (resolvePos left right = none ↔
      ((left.map Prod.fst).getD false = (right.map Prod.fst).getD false ∧
        (left.map Prod.snd).getD 0 = 0 ∧ (right.map Prod.snd).getD 0 = 0)) ∧
    (∀ xl, left = some (true, xl) →
      (right.map Prod.fst).getD false = false → resolvePos left right = some xl) ∧
    (∀ xr, right = some (true, xr) →
      (left.map Prod.fst).getD false = false → resolvePos left right = some xr) ∧
    (∀ bl br xl xr, left = some (bl, xl) → right = some (br, xr) →
      bl = br → xl ≠ 0 → xr ≠ 0 →
      resolvePos left right = some ((xl + xr) / 2)) := by
  refine ⟨?_, ?_, ?_, ?_⟩
  · simp only [resolvePos]
    set rl := (left.map Prod.fst).getD false with hrl
    set rr := (right.map Prod.fst).getD false with hrr
    set xl := (left.map Prod.snd).getD 0 with hxl
    set xr := (right.map Prod.snd).getD 0 with hxr
    by_cases h1 : xl = 0 <;> by_cases h2 : xr = 0 <;>
      cases rl <;> cases rr <;> simp [h1, h2]
  · intro xl hl hr
    subst hl
    simp only [resolvePos, Option.map_some, Option.getD_some]
    rw [hr]
    simp
  · intro xr hr hl
    subst hr
    simp only [resolvePos, Option.map_some, Option.getD_some]
    rw [hl]
    simp
  · intro bl br xl xr hl hr hb h1 h2
    subst hl
    subst hr
    subst hb
    simp only [resolvePos, Option.map_some, Option.getD_some]
    cases bl <;> simp [h1, h2]

/-- Witness for `C6_amended`: both flags falsy, projections `2` and `4`,
resolved to the average `3`. -/
theorem C6_amended_witness :
    resolvePos (some (false, 2)) (some (false, 4)) = some 3 := by
  have h := (C6_amended (some (false, 2)) (some (false, 4))).2.2.2
    false false 2 4 rfl rfl rfl (by norm_num) (by norm_num)
  rw [h]
  norm_num

/-! ## C7: when `fenceline` runs the smoother -/

/-- Guideline for C7: the straight segment `(0,0)-(2,0)`. -/
def uC7 : List Pt := [(0, 0), (2, 0)]

def dC7 : PointDict := [(1, ((0:ℝ), (0:ℝ))), (2, (1, 10)), (3, (2, 0))]

def cmdsC7 : Cmds := ⟨some uC7, none, none⟩

lemma mapPoint_uC7_i0 (a : Pt)
    (hnear : ¬ hypot_p a (2, 0) < hypot_p a (0, 0))
    (h0 : 0 ≤ a.1) (h2 : a.1 ≤ 2) :
    mapPoint uC7 a = some a.1 := by
  have hlen : Line.length ⟨((0:ℝ), (0:ℝ)), ((2:ℝ), (0:ℝ))⟩ = 2 := by
    unfold Line.length
    exact hypot_eval _ _ 2 (by norm_num) (by norm_num)
  have hnr : knearest uC7 a = 0 := by
    unfold knearest
    rw [show uC7.enum = [(0, ((0:ℝ), (0:ℝ))), (1, ((2:ℝ), (0:ℝ)))] from rfl]
    simp only [List.foldl_cons, List.foldl_nil]
    rw [if_neg hnear]
  have hright : rightProj (mkLines uC7) (mkLines uC7).length 0 a
      = some (true, a.1) := by
    unfold rightProj
    rw [show (mkLines uC7).get? 0 =
        some ⟨((0:ℝ), (0:ℝ)), ((2:ℝ), (0:ℝ))⟩ from rfl]
    simp only [seg_s0, List.take_zero, List.map_nil, List.sum_nil]
    rw [XY_horizontal 0 0 2 (by norm_num) a, hlen]
    norm_num
    exact Or.inl ⟨h0, h2⟩
  have hleft : leftProj (mkLines uC7) 0 a = none := rfl
  simp only [mapPoint]
  rw [hnr, hleft, hright]
  simp [resolvePos]

lemma mapPoint_dC7_1 : mapPoint uC7 ((0:ℝ), (0:ℝ)) = some 0 := by
  apply mapPoint_uC7_i0 _ _ (by norm_num) (by norm_num)
  rw [hypot_eval ((0:ℝ), (0:ℝ)) (2, 0) 2 (by norm_num) (by norm_num),
    hypot_eval ((0:ℝ), (0:ℝ)) (0, 0) 0 (by norm_num) (by norm_num)]
  norm_num

lemma mapPoint_dC7_2 : mapPoint uC7 ((1:ℝ), (10:ℝ)) = some 1 := by
  apply mapPoint_uC7_i0 _ _ (by norm_num) (by norm_num)
  rw [hypot_eval ((1:ℝ), (10:ℝ)) (2, 0) (Real.sqrt 101) (Real.sqrt_nonneg _)
      (by rw [Real.sq_sqrt (by norm_num : (0:ℝ) ≤ 101)]; norm_num),
    hypot_eval ((1:ℝ), (10:ℝ)) (0, 0) (Real.sqrt 101) (Real.sqrt_nonneg _)
      (by rw [Real.sq_sqrt (by norm_num : (0:ℝ) ≤ 101)]; norm_num)]
  exact lt_irrefl _

lemma mapPoint_dC7_3 : mapPoint uC7 ((2:ℝ), (0:ℝ)) = some 2 := by
  have hlen : Line.length ⟨((0:ℝ), (0:ℝ)), ((2:ℝ), (0:ℝ))⟩ = 2 := by
    unfold Line.length
    exact hypot_eval _ _ 2 (by norm_num) (by norm_num)
  have hnr : knearest uC7 ((2:ℝ), (0:ℝ)) = 1 := by
    unfold knearest
    rw [show uC7.enum = [(0, ((0:ℝ), (0:ℝ))), (1, ((2:ℝ), (0:ℝ)))] from rfl]
    simp only [List.foldl_cons, List.foldl_nil]
    rw [if_pos (by
      rw [hypot_eval ((2:ℝ), (0:ℝ)) (2, 0) 0 (by norm_num) (by norm_num),
        hypot_eval ((2:ℝ), (0:ℝ)) (0, 0) 2 (by norm_num) (by norm_num)]
      norm_num)]
  have hleft : leftProj (mkLines uC7) 1 ((2:ℝ), (0:ℝ)) = some (true, 2) := by
    unfold leftProj
    rw [if_neg (by norm_num)]
    rw [show (mkLines uC7).get? (1 - 1) =
        some ⟨((0:ℝ), (0:ℝ)), ((2:ℝ), (0:ℝ))⟩ from rfl]
    simp only [seg_s0, List.take_zero, List.map_nil, List.sum_nil]
    rw [XY_horizontal 0 0 2 (by norm_num), hlen]
    norm_num
  have hright : rightProj (mkLines uC7) (mkLines uC7).length 1 ((2:ℝ), (0:ℝ))
      = none := rfl
  simp only [mapPoint]
  rw [hnr, hleft, hright]
  simp [resolvePos]

lemma ffwu_dC7 : find_fenceline_with_userline dC7 cmdsC7 = some [1, 2, 3] := by
  have hkp : kpositions uC7 dC7 = some [(1, 0), (2, 1), (3, 2)] := by
    simp only [dC7, kpositions, mapPoint_dC7_1, mapPoint_dC7_2, mapPoint_dC7_3]
  have e1 : (decide ((0:ℝ) = 1)) = false := decide_eq_false (by norm_num)
  have e2 : (decide ((0:ℝ) = 2)) = false := decide_eq_false (by norm_num)
  have e3 : (decide ((1:ℝ) = 2)) = false := decide_eq_false (by norm_num)
  have hrp : rposition [(1, 0), (2, 1), (3, 2)] =
      [((0:ℝ), (1:ℕ)), (1, 2), (2, 3)] := by
    unfold rposition
    simp only [List.foldl_cons, List.foldl_nil, List.any_nil, List.any_cons,
      e1, e2, e3, Bool.or_false, Bool.false_or, Bool.false_eq_true, if_false,
      List.nil_append]
    norm_num
  have hsort : List.insertionSort (fun p q => p.1 ≤ q.1)
      [((0:ℝ), (1:ℕ)), (1, 2), (2, 3)] = [(0, 1), (1, 2), (2, 3)] := by
    simp only [List.insertionSort, List.orderedInsert_nil]
    rw [@List.orderedInsert_of_le (ℝ × ℕ) (fun p q => p.1 ≤ q.1) _
      (1, 2) (2, 3) [] (by norm_num)]
    rw [@List.orderedInsert_of_le (ℝ × ℕ) (fun p q => p.1 ≤ q.1) _
      (0, 1) (1, 2) [(2, 3)] (by norm_num)]
  unfold find_fenceline_with_userline
  rw [show cmdsC7.userline = some uC7 from rfl]
  simp only []
  rw [hkp]
  simp only []
  rw [hrp, hsort]
  rfl

lemma smooth_dC7 : fenceline_smooth dC7 [1, 2, 3] = [1, 3, 2] := by
  have hQ : [1, 2, 3].map (dictGet dC7) =
      [((0:ℝ), (0:ℝ)), (1, 10), (2, 0)] := rfl
  have h02 : hypot_p ((0:ℝ), (0:ℝ)) (2, 0) = 2 :=
    hypot_eval _ _ 2 (by norm_num) (by norm_num)
  have h20 : hypot_p ((2:ℝ), (0:ℝ)) (0, 0) = 2 :=
    hypot_eval _ _ 2 (by norm_num) (by norm_num)
  have h12 : hypot_p ((1:ℝ), (10:ℝ)) (2, 0) = Real.sqrt 101 :=
    hypot_eval _ _ _ (Real.sqrt_nonneg _)
      (by rw [Real.sq_sqrt (by norm_num : (0:ℝ) ≤ 101)]; norm_num)
  have h10 : hypot_p ((1:ℝ), (10:ℝ)) (0, 0) = Real.sqrt 101 :=
    hypot_eval _ _ _ (Real.sqrt_nonneg _)
      (by rw [Real.sq_sqrt (by norm_num : (0:ℝ) ≤ 101)]; norm_num)
  have hlt : (2:ℝ) < Real.sqrt 101 := by
    rw [show (2:ℝ) = Real.sqrt 4 by
      rw [show (4:ℝ) = 2 ^ 2 by norm_num]
      exact (Real.sqrt_sq (by norm_num)).symm]
    exact Real.sqrt_lt_sqrt (by norm_num) (by norm_num)
  have hd1 : (score_swapE 0 1 2 ([1, 2, 3].map (dictGet dC7))).1 =
      2 - Real.sqrt 101 := by
    rw [hQ]
    simp only [score_swapE]
    rw [show pyGet [((0:ℝ), (0:ℝ)), (1, 10), (2, 0)] 0 = ((0:ℝ), (0:ℝ)) from rfl,
      show pyGet [((0:ℝ), (0:ℝ)), (1, 10), (2, 0)] 1 = ((1:ℝ), (10:ℝ)) from rfl,
      show pyGet [((0:ℝ), (0:ℝ)), (1, 10), (2, 0)] 2 = ((2:ℝ), (0:ℝ)) from rfl,
      h02, h12]
  have hd2 : (score_swapE 2 1 0 ([1, 2, 3].map (dictGet dC7))).1 =
      2 - Real.sqrt 101 := by
    rw [hQ]
    simp only [score_swapE]
    rw [show pyGet [((0:ℝ), (0:ℝ)), (1, 10), (2, 0)] 0 = ((0:ℝ), (0:ℝ)) from rfl,
      show pyGet [((0:ℝ), (0:ℝ)), (1, 10), (2, 0)] 1 = ((1:ℝ), (10:ℝ)) from rfl,
      show pyGet [((0:ℝ), (0:ℝ)), (1, 10), (2, 0)] 2 = ((2:ℝ), (0:ℝ)) from rfl,
      h20, h10]
  unfold fenceline_smooth
  rw [show dC7.length = 3 from rfl]
  rw [if_neg (by norm_num), if_pos rfl]
  rw [hd1, hd2]
  rw [if_neg (by
    intro hcon
    exact lt_irrefl _ hcon.2)]
  rw [if_pos (by linarith)]
  rfl

/-- **C7 (counterexample).** With the guideline `uC7` and the three wells
of `dC7`, the fenceline mode returns the mapper ordering `[1,2,3]`
unsmoothed (the smoother runs only when `N > 5` and
`N > 2 * len(userline)`), although the Path Smoother applied to that
initial ordering would return `[1,3,2]`: the initial ordering is *not*
passed through the Path Smoother. -/
theorem C7_cex :
    (fenceline dC7 cmdsC7).map (fun r => r.1) = some [1, 2, 3] ∧
      fenceline_smooth dC7 [1, 2, 3] = [1, 3, 2] ∧
      ([1, 2, 3] : List ℕ) ≠ [1, 3, 2] := by
  refine ⟨?_, smooth_dC7, by norm_num⟩
  unfold fenceline
  rw [if_neg (by norm_num [dC7] : ¬ dC7.length = 1)]
  rw [show cmdsC7.userlineTruthy = true from rfl]
  rw [if_pos rfl]
  rw [ffwu_dC7]
  simp only []
  rw [if_neg (by norm_num)]
  rfl

/-- **C7 (amended).** With at least two points: when no userline is given,
the Best-Fit ordering is always passed through the Path Smoother; when a
(truthy) userline is given, the User-Guideline ordering is smoothed only
when it has more than 5 entries and more than twice as many entries as the
userline has waypoints — otherwise it is returned unsmoothed. -/
theorem C7_amended (d : PointDict) (cmds : Cmds) (h1 : d.length ≠ 1) :
    (cmds.userline = none →
      (fenceline d cmds).map (fun r => r.1) =
        some (fenceline_smooth d (find_best_projected_ordering d cmds).1)) ∧
    (∀ u, cmds.userline = some u → u ≠ [] →
      (fenceline d cmds).map (fun r => r.1) =
        (find_fenceline_with_userline d cmds).map (fun o =>
          if 5 < o.length ∧ 2 < (o.length : ℝ) / (u.length : ℝ) then
            fenceline_smooth d o
          else o)) := by
  constructor
  · intro hu
    unfold fenceline
    rw [if_neg h1]
    have ht : cmds.userlineTruthy = false := by
      unfold Cmds.userlineTruthy
      rw [hu]
    rw [ht]
    simp
  · intro u hu hne
    unfold fenceline
    rw [if_neg h1]
    have ht : cmds.userlineTruthy = true := by
      unfold Cmds.userlineTruthy
      rw [hu]
      simp [hne]
    rw [ht]
    simp only [if_true]
    cases hm : find_fenceline_with_userline d cmds with
    | none => simp
    | some o =>
        simp only [Option.map_some]
        rw [hu]
        simp

/-- Witness for `C7_amended` at the concrete input `dC7`, `cmdsC7`. -/
theorem C7_amended_witness :
    (fenceline dC7 cmdsC7).map (fun r => r.1) =
      (find_fenceline_with_userline dC7 cmdsC7).map (fun o =>
        if 5 < o.length ∧ 2 < (o.length : ℝ) / ((uC7.length : ℝ)) then
          fenceline_smooth dC7 o
        else o) :=
  (C7_amended dC7 cmdsC7 (by norm_num [dC7])).2 uC7 rfl (by simp [uC7])

/-! ## C9: `projected_section_line` mutates `cmds.userangle` -/

def d9 : PointDict := [(1, ((0:ℝ), (0:ℝ))), (2, (2, 2))]

def cmds9 : Cmds := ⟨none, none, none⟩

/-- **C9 (counterexample).** Invoking `projected_section_line` on two
points with an empty hints bundle does *not* leave the bundle unchanged:
the source executes `cmds.userangle = userangle`, so the `userangle` field
goes from `None` to the computed best-fit angle. -/
theorem C9_cex :
    (projected_section_line d9 cmds9).2.userangle =
        some (find_best_projected_ordering d9 cmds9).2 ∧
      cmds9.userangle = none ∧
      (projected_section_line d9 cmds9).2.userangle ≠ cmds9.userangle := by
  have h : (projected_section_line d9 cmds9).2 =
      { cmds9 with userangle := some (find_best_projected_ordering d9 cmds9).2 } := by
    unfold projected_section_line
    rw [if_neg (by norm_num [d9] : ¬ d9.length = 1)]
    rfl
  refine ⟨by rw [h], rfl, by rw [h]; simp [cmds9]⟩

/-- **C9 (amended).** `projected_section_line` leaves `userline` and
`userangle_constraint` unchanged in every case; with one point, or when a
userline is present, the whole bundle is unchanged; when no userline is
given (and more than one point), the `userangle` field is overwritten with
the angle computed by the Best-Fit Line Solver — this mutation of the
caller's namespace is the only state that persists across invocations. -/
theorem C9_amended (d : PointDict) (cmds : Cmds) :
    ((projected_section_line d cmds).2.userline = cmds.userline ∧
      (projected_section_line d cmds).2.userangle_constraint =
        cmds.userangle_constraint) ∧
    (cmds.userline ≠ none ∨ d.length = 1 →
      (projected_section_line d cmds).2 = cmds) ∧
    (cmds.userline = none → d.length ≠ 1 →
      (projected_section_line d cmds).2.userangle =
        some (find_best_projected_ordering d cmds).2) := by
  by_cases h1 : d.length = 1
  · unfold projected_section_line
    rw [if_pos h1]
    exact ⟨⟨rfl, rfl⟩, fun _ => rfl, fun _ hn => absurd h1 hn⟩
  · unfold projected_section_line
    rw [if_neg h1]
    cases hu : cmds.userline with
    | none =>
        refine ⟨⟨rfl, rfl⟩, ?_, fun _ _ => rfl⟩
        rintro (hne | he)
        · exact absurd rfl hne
        · exact absurd he h1
    | some u =>
        exact ⟨⟨hu, rfl⟩, fun _ => rfl,
          fun hn _ => absurd hn (Option.some_ne_none u)⟩

/-- Witness for `C9_amended` at the concrete two-point input. -/
theorem C9_amended_witness :
    (projected_section_line d9 cmds9).2.userangle =
      some (find_best_projected_ordering d9 cmds9).2 :=
  (C9_amended d9 cmds9).2.2 rfl (by norm_num [d9])

/-! ## C3: the solver with a tight (zero) angle constraint -/

/-- The along-coordinate of a point under simple projection onto the
direction `a` (the x-coordinate after rotating the plane by `-a`); this is
the spec-side notion the ordering claims are stated against. -/
noncomputable def alongCoord (a : ℝ) (p : Pt) : ℝ :=
  p.1 * Real.cos a + p.2 * Real.sin a

/-- The centred, hint-rotated working coordinates `X0, Y0` that
`find_best_projected_ordering` computes before entering its loop. -/
noncomputable def solverX0 (d : PointDict) (angle0 : ℝ) : List ℝ × List ℝ :=
  let x := d.map (fun kv => kv.2.1)
  let y := d.map (fun kv => kv.2.2)
  let xc := x.sum / x.length
  let yc := y.sum / y.length
  rotateL (x.map (· + -xc)) (y.map (· + -yc)) (-angle0)

lemma zipWith_map_same {α β γ δ : Type} (f : β → γ → δ) (g : α → β)
    (h : α → γ) : ∀ l : List α,
    List.zipWith f (l.map g) (l.map h) = l.map fun v => f (g v) (h v)
  | [] => rfl
  | _ :: t => by simp [zipWith_map_same f g h t]

lemma zipWith_proj_left : ∀ (x y : List ℝ), x.length = y.length →
    List.zipWith (fun a _ => a) x y = x
  | [], _, _ => rfl
  | a :: x, b :: y, h => by
      rw [List.zipWith_cons_cons, zipWith_proj_left x y (by simpa using h)]
  | a :: x, [], h => by cases h

lemma rotateL_neg_zero (x y : List ℝ) (h : x.length = y.length) :
    rotateL x y (-0) = (x, y) := by
  unfold rotateL
  rw [neg_zero, Real.cos_zero, Real.sin_zero]
  refine Prod.ext_iff.mpr ⟨?_, ?_⟩
  · rw [show (fun (a b : ℝ) => a * 1 - b * 0) = fun (a : ℝ) (_ : ℝ) => a by
      funext a b; ring]
    exact zipWith_proj_left x y h
  · rw [show (fun (b a : ℝ) => b * 1 + a * 0) = fun (b : ℝ) (_ : ℝ) => b by
      funext a b; ring]
    exact zipWith_proj_left y x h.symm

lemma rotateL_length (x y : List ℝ) (t : ℝ) :
    (rotateL x y t).1.length = min x.length y.length ∧
      (rotateL x y t).2.length = min x.length y.length := by
  unfold rotateL
  constructor
  · simp [List.length_zipWith]
  · simp [List.length_zipWith, Nat.min_comm]

lemma sum_sq_zero {c : ℝ} : ∀ {l : List ℝ},
    (l.map fun v => (v - c) ^ 2).sum = 0 → ∀ v ∈ l, v = c := by
  intro l
  induction l with
  | nil => intro _ v hv; cases hv
  | cons hd t ih =>
    intro hs v hv
    simp only [List.map_cons, List.sum_cons] at hs
    have h1 : 0 ≤ (hd - c) ^ 2 := sq_nonneg _
    have h2 : 0 ≤ (t.map fun v => (v - c) ^ 2).sum :=
      List.sum_nonneg (by
        intro z hz
        obtain ⟨w, _, rfl⟩ := List.mem_map.mp hz
        exact sq_nonneg _)
    rcases List.mem_cons.mp hv with rfl | hv'
    · have h3 : (v - c) ^ 2 = 0 := by linarith
      have h4 : v - c = 0 := by
        exact pow_eq_zero_iff (two_ne_zero) |>.mp h3
      linarith
    · exact ih (by linarith) v hv'

lemma polyfit1_ne_none (X Y : List ℝ) (v w : ℝ) (hv : v ∈ X) (hw : w ∈ X)
    (hne : v ≠ w) : polyfit1 X Y ≠ none := by
  simp only [polyfit1]
  intro hcon
  by_cases hs : (X.map fun t => (t - X.sum / X.length) ^ 2).sum = 0
  · exact hne ((sum_sq_zero hs v hv).trans (sum_sq_zero hs w hw).symm)
  · rw [if_neg hs] at hcon
    cases hcon

lemma bfLoop_zero (X0 Y0 : List ℝ) (tol : ℝ)
    (hfit : polyfit1 (rotateL X0 Y0 (-0)).1 (rotateL X0 Y0 (-0)).2 ≠ none) :
    bfLoop X0 Y0 0 tol 1 0 0 0.01 = 0 := by
  rw [bfLoop, if_pos (by norm_num : (1:ℕ) < 20)]
  cases hp : polyfit1 (rotateL X0 Y0 (-0)).1 (rotateL X0 Y0 (-0)).2 with
  | none => exact absurd hp hfit
  | some p =>
    obtain ⟨slope, intercept⟩ := p
    simp only []
    by_cases h : (0:ℝ) + atan2 (slope + intercept) 1 ≤ -0
    · rw [if_pos h]
      norm_num
    · rw [if_neg h, if_pos (by push_neg at h; linarith)]

/-- The sort relation used by `argsortIdx`: value first, original position
as the stable tie-break. -/
def argRel : ℕ × ℝ → ℕ × ℝ → Prop := fun p q =>
  p.2 < q.2 ∨ (p.2 = q.2 ∧ p.1 ≤ q.1)

lemma argRel_trans : ∀ a b c : ℕ × ℝ, argRel a b → argRel b c → argRel a c := by
  rintro a b c (h1 | ⟨h1, h1'⟩) (h2 | ⟨h2, h2'⟩)
  · exact Or.inl (h1.trans h2)
  · exact Or.inl (h2 ▸ h1)
  · exact Or.inl (h1 ▸ h2)
  · exact Or.inr ⟨h1.trans h2, h1'.trans h2'⟩

lemma argRel_total : ∀ a b : ℕ × ℝ, argRel a b ∨ argRel b a := by
  intro a b
  rcases lt_trichotomy a.2 b.2 with h | h | h
  · exact Or.inl (Or.inl h)
  · rcases le_total a.1 b.1 with h' | h'
    · exact Or.inl (Or.inr ⟨h, h'⟩)
    · exact Or.inr (Or.inr ⟨h.symm, h'⟩)
  · exact Or.inr (Or.inl h)

lemma argsortIdx_perm (X : List ℝ) :
    (argsortIdx X).Perm (List.range X.length) := by
  unfold argsortIdx
  have h1 : (X.enum.insertionSort
      (fun p q => p.2 < q.2 ∨ (p.2 = q.2 ∧ p.1 ≤ q.1))).Perm X.enum :=
    List.perm_insertionSort _ _
  have h2 := h1.map Prod.fst
  rwa [List.enum_map_fst] at h2

lemma map_getD_range {α : Type} (l : List α) (dflt : α) :
    (List.range l.length).map (fun i => l.getD i dflt) = l := by
  apply List.ext_getElem (by simp)
  intro i h1 h2
  simp only [List.getElem_map, List.getElem_range]
  exact List.getD_eq_getElem _ _ h2

/-- The sorted index/value pairs of an injectively-valued list are strictly
increasing in value. -/
lemma argsort_strict (X : List ℝ) (hX : X.Pairwise (· ≠ ·))
    (f : ℕ → ℝ) (K : ℝ)
    (hf : ∀ i, i < X.length → f i = X.getD i 0 + K) :
    ((argsortIdx X).map f).Pairwise (· < ·) := by
  unfold argsortIdx
  rw [List.map_map]
  rw [List.pairwise_map]
  haveI : IsTotal (ℕ × ℝ) (fun p q => p.2 < q.2 ∨ (p.2 = q.2 ∧ p.1 ≤ q.1)) :=
    ⟨argRel_total⟩
  haveI : IsTrans (ℕ × ℝ) (fun p q => p.2 < q.2 ∨ (p.2 = q.2 ∧ p.1 ≤ q.1)) :=
    ⟨argRel_trans⟩
  have hsorted : (X.enum.insertionSort
      (fun p q => p.2 < q.2 ∨ (p.2 = q.2 ∧ p.1 ≤ q.1))).Pairwise
      (fun p q => p.2 < q.2 ∨ (p.2 = q.2 ∧ p.1 ≤ q.1)) :=
    List.sorted_insertionSort _ _
  have hperm : (X.enum.insertionSort
      (fun p q => p.2 < q.2 ∨ (p.2 = q.2 ∧ p.1 ≤ q.1))).Perm X.enum :=
    List.perm_insertionSort _ _
  have hmem : ∀ p : ℕ × ℝ, p ∈ X.enum → p.1 < X.length ∧ X[p.1]? = some p.2 := by
    intro p hp
    have h := List.mem_enum_iff_getElem?.mp hp
    exact ⟨(List.getElem?_eq_some.mp h).1, h⟩
  have hinj : ∀ p ∈ X.enum, ∀ q ∈ X.enum, p.2 = q.2 → p = q := by
    intro p hp q hq hpq
    obtain ⟨hp1, hp2⟩ := hmem p hp
    obtain ⟨hq1, hq2⟩ := hmem q hq
    have hXp : X[p.1] = p.2 := (List.getElem?_eq_some.mp hp2).2.symm ▸ rfl
    have hXq : X[q.1] = q.2 := (List.getElem?_eq_some.mp hq2).2.symm ▸ rfl
    rcases lt_trichotomy p.1 q.1 with h | h | h
    · have := (List.pairwise_iff_getElem.mp hX) p.1 q.1 hp1 hq1 h
      rw [hXp, hXq] at this
      exact absurd hpq this
    · exact Prod.ext_iff.mpr ⟨h, hpq⟩
    · have := (List.pairwise_iff_getElem.mp hX) q.1 p.1 hq1 hp1 h
      rw [hXp, hXq] at this
      exact absurd hpq.symm this
  have hnd : (X.enum.insertionSort
      (fun p q => p.2 < q.2 ∨ (p.2 = q.2 ∧ p.1 ≤ q.1))).Pairwise (· ≠ ·) := by
    have : X.enum.Nodup := by
      apply List.Nodup.of_map Prod.fst
      rw [List.enum_map_fst]
      exact List.nodup_range _
    exact (hperm.nodup_iff.mpr this)
  refine (hsorted.and hnd).imp_of_mem ?_
  intro p q hp hq hr
  show f p.1 < f q.1
  have hpe : p ∈ X.enum := hperm.subset hp
  have hqe : q ∈ X.enum := hperm.subset hq
  obtain ⟨hp1, hp2⟩ := hmem p hpe
  obtain ⟨hq1, hq2⟩ := hmem q hqe
  have hXp : X.getD p.1 0 = p.2 := by
    rw [List.getD_eq_getElem _ _ hp1]
    exact (List.getElem?_eq_some.mp hp2).2
  have hXq : X.getD q.1 0 = q.2 := by
    rw [List.getD_eq_getElem _ _ hq1]
    exact (List.getElem?_eq_some.mp hq2).2
  rw [hf p.1 hp1, hf q.1 hq1, hXp, hXq]
  rcases hr.1 with h | ⟨heq, _⟩
  · linarith
  · exact absurd (hinj p hpe q hqe heq) hr.2

/-- With distinct keys, looking up the `i`-th key returns the `i`-th
value (Python dicts have unique keys, so `d_xy[k]` is this lookup). -/
lemma lookup_nodup : ∀ (d : PointDict), (d.map Prod.fst).Nodup →
    ∀ i (h : i < d.length), d.lookup d[i].1 = some d[i].2 := by
  intro d
  induction d with
  | nil => intro _ i h; cases h
  | cons kv t ih =>
    intro hnd i h
    cases i with
    | zero =>
        show List.lookup kv.1 (kv :: t) = some kv.2
        simp [List.lookup]
    | succ j =>
        have hj : j < t.length := by simpa using h
        simp only [List.map_cons, List.nodup_cons] at hnd
        have hstep : ((kv :: t)[j + 1]) = t[j] := by simp
        rw [hstep]
        have hne : t[j].1 ≠ kv.1 := by
          intro he
          exact hnd.1 (he ▸ List.mem_map.mpr ⟨t[j], List.getElem_mem hj, rfl⟩)
        show List.lookup t[j].1 (kv :: t) = some t[j].2
        simp only [List.lookup]
        rw [show (t[j].1 == kv.1) = false from beq_eq_false_iff_ne.mpr hne]
        exact ih hnd.2 j hj

lemma solverX0_along (d : PointDict) (a : ℝ) :
    ∃ K : ℝ, (solverX0 d a).1 =
      d.map fun kv => alongCoord a kv.2 - K := by
  refine ⟨(d.map fun kv => kv.2.1).sum /
        ((d.map fun kv => kv.2.1).length : ℝ) * Real.cos a +
      (d.map fun kv => kv.2.2).sum /
        ((d.map fun kv => kv.2.2).length : ℝ) * Real.sin a, ?_⟩
  unfold solverX0 rotateL
  simp only [List.map_map]
  rw [zipWith_map_same]
  apply List.map_congr_left
  intro kv _
  simp only [Function.comp_apply, alongCoord, Real.cos_neg, Real.sin_neg]
  ring

lemma solverX0_len (d : PointDict) (a : ℝ) :
    (solverX0 d a).1.length = d.length ∧
      (solverX0 d a).2.length = d.length := by
  constructor <;> simp [solverX0, rotateL, List.length_zipWith]

/-- Evaluation of `find_best_projected_ordering` with a hint angle and a
zero angle constraint: the loop clamps `theta` to `0` after the first
successful fit, so the ordering is the argsort of the hint-frame
x-coordinates and the angle is exactly the hint. -/
lemma fbpo_tight (d : PointDict) (ul : Option (List Pt)) (a : ℝ)
    (hfit : polyfit1 (solverX0 d a).1 (solverX0 d a).2 ≠ none) :
    find_best_projected_ordering d ⟨ul, some a, some 0⟩ =
      ((argsortIdx (solverX0 d a).1).map (fun i => (d.map Prod.fst).getD i 0),
        0 + a) := by
  have hlen : (solverX0 d a).1.length = (solverX0 d a).2.length := by
    rw [(solverX0_len d a).1, (solverX0_len d a).2]
  have hrot := rotateL_neg_zero (solverX0 d a).1 (solverX0 d a).2 hlen
  have htheta : bfLoop (solverX0 d a).1 (solverX0 d a).2 0 (π / 180) 1 0 0 0.01
      = 0 :=
    bfLoop_zero _ _ _ (by rw [hrot]; exact hfit)
  show ((argsortIdx ((rotateL (solverX0 d a).1 (solverX0 d a).2
        (-(bfLoop (solverX0 d a).1 (solverX0 d a).2 0 (π / 180) 1 0 0 0.01))).1)).map
      (fun i => (d.map Prod.fst).getD i 0),
    bfLoop (solverX0 d a).1 (solverX0 d a).2 0 (π / 180) 1 0 0 0.01 + a) = _
  rw [htheta, hrot]

/-- **C3 (confirmed).** With a hint angle `a` and `userangle_constraint = 0`,
the Best-Fit Line Solver returns the hint angle exactly, and an ordering
that is a permutation of the input identifiers arranged in strictly
increasing along-coordinate under simple projection onto the fixed hint
angle.  Hypotheses: at least 2 points, distinct identifiers (a Python
dict), and pairwise distinct along-coordinates (`np.argsort`'s order on
ties is unspecified). -/
theorem C3_tight_constraint (d : PointDict) (cmds : Cmds) (a : ℝ)
    (ha : cmds.userangle = some a) (hc : cmds.userangle_constraint = some 0)
    (hn : 2 ≤ d.length) (hkeys : (d.map Prod.fst).Nodup)
    (hdist : (d.map fun kv => alongCoord a kv.2).Pairwise (· ≠ ·)) :
    (find_best_projected_ordering d cmds).2 = a ∧
      (find_best_projected_ordering d cmds).1.Perm (d.map Prod.fst) ∧
      ((find_best_projected_ordering d cmds).1.map
        (fun k => alongCoord a (dictGet d k))).Pairwise (· < ·) := by
  obtain ⟨ul, ua, uc⟩ := cmds
  have ha' : ua = some a := ha
  have hc' : uc = some 0 := hc
  subst ha'
  subst hc'
  obtain ⟨K, hK⟩ := solverX0_along d a
  have hX0dist : (solverX0 d a).1.Pairwise (· ≠ ·) := by
    rw [hK, List.pairwise_map]
    exact (List.pairwise_map.mp hdist).imp
      (fun h hcon => h (by linarith))
  have hfit : polyfit1 (solverX0 d a).1 (solverX0 d a).2 ≠ none := by
    cases d with
    | nil => exact absurd hn (by norm_num)
    | cons kv1 t =>
      cases t with
      | nil => exact absurd hn (by norm_num)
      | cons kv2 t2 =>
        have hd12 : alongCoord a kv1.2 ≠ alongCoord a kv2.2 := by
          have h1 := hdist
          simp only [List.map_cons, List.pairwise_cons] at h1
          exact h1.1 _ (List.mem_cons_self _ _)
        apply polyfit1_ne_none _ _ (alongCoord a kv1.2 - K)
          (alongCoord a kv2.2 - K)
        · rw [hK]
          exact List.mem_map_of_mem _ (List.mem_cons_self _ _)
        · rw [hK]
          exact List.mem_map_of_mem _
            (List.mem_cons_of_mem _ (List.mem_cons_self _ _))
        · intro hcon
          exact hd12 (by linarith)
  rw [fbpo_tight d ul a hfit]
  have hlen1 : (solverX0 d a).1.length = d.length := (solverX0_len d a).1
  refine ⟨by norm_num, ?_, ?_⟩
  · have hp := (argsortIdx_perm (solverX0 d a).1).map
      (fun i => (d.map Prod.fst).getD i 0)
    rw [hlen1] at hp
    have hr : (List.range d.length).map (fun i => (d.map Prod.fst).getD i 0)
        = d.map Prod.fst := by
      have h0 := map_getD_range (d.map Prod.fst) 0
      rwa [List.length_map] at h0
    rwa [hr] at hp
  · rw [List.map_map]
    apply argsort_strict (solverX0 d a).1 hX0dist _ K
    intro i hi
    rw [hlen1] at hi
    have hkey : ((d.map Prod.fst).getD i 0) = d[i].1 := by
      rw [List.getD_eq_getElem _ _ (by simpa using hi), List.getElem_map]
    have hget : dictGet d ((d.map Prod.fst).getD i 0) = d[i].2 := by
      rw [hkey]
      unfold dictGet
      rw [lookup_nodup d hkeys i hi]
      rfl
    show alongCoord a (dictGet d ((d.map Prod.fst).getD i 0))
      = (solverX0 d a).1.getD i 0 + K
    rw [hget, hK,
      List.getD_eq_getElem _ _ (by rw [List.length_map]; exact hi),
      List.getElem_map]
    ring

/-- The design document's concrete example for the tight-constraint case:
`{A:(0,0), B:(1,1), C:(2,-1)}`, hint angle `0`, tolerance `0`. -/
def d3 : PointDict := [(1, ((0:ℝ), (0:ℝ))), (2, (1, 1)), (3, (2, -1))]

def cmds3 : Cmds := ⟨none, some 0, some 0⟩

/-- Witness for `C3_tight_constraint` at the design document's example. -/
theorem C3_witness :
    (find_best_projected_ordering d3 cmds3).2 = 0 ∧
      (find_best_projected_ordering d3 cmds3).1.Perm (d3.map Prod.fst) ∧
      ((find_best_projected_ordering d3 cmds3).1.map
        (fun k => alongCoord 0 (dictGet d3 k))).Pairwise (· < ·) :=
  C3_tight_constraint d3 cmds3 0 rfl rfl (by norm_num [d3])
    (by simp [d3])
    (by
      simp only [d3, List.map_cons, List.map_nil, alongCoord,
        Real.cos_zero, Real.sin_zero]
      norm_num [List.pairwise_cons])

/-! ## C4: the solver on exactly two points -/

lemma rot2 (U V θ : ℝ) :
    rotateL [-(U/2), U/2] [-(V/2), V/2] (-θ) =
      ([-((U * Real.cos θ + V * Real.sin θ)/2),
          (U * Real.cos θ + V * Real.sin θ)/2],
        [-((V * Real.cos θ - U * Real.sin θ)/2),
          (V * Real.cos θ - U * Real.sin θ)/2]) := by
  unfold rotateL
  rw [Real.cos_neg, Real.sin_neg]
  refine Prod.ext_iff.mpr ⟨?_, ?_⟩ <;>
    simp only [List.zipWith_cons_cons, List.zipWith_nil_right, List.cons.injEq,
      and_true] <;> constructor <;> ring

lemma polyfit_two (u v : ℝ) (hu : u ≠ 0) :
    polyfit1 [-(u/2), u/2] [-(v/2), v/2] = some (v/u, 0) := by
  simp only [polyfit1, List.sum_cons, List.sum_nil, List.length_cons,
    List.length_nil, List.map_cons, List.map_nil, List.zipWith_cons_cons,
    List.zipWith_nil_right]
  norm_num
  refine ⟨hu, ?_⟩
  field_simp
  ring

lemma polyfit_two_none (u v : ℝ) (hu : u = 0) :
    polyfit1 [-(u/2), u/2] [-(v/2), v/2] = none := by
  subst hu
  simp only [polyfit1, List.sum_cons, List.sum_nil, List.length_cons,
    List.length_nil, List.map_cons, List.map_nil]
  norm_num

/-- `arctan (tan x)` shifts `x` into `(-pi/2, pi/2)` by an integer multiple
of `pi`, provided `cos x` is nonzero. -/
lemma arctan_tan_shift (x : ℝ) (h : Real.cos x ≠ 0) :
    ∃ m : ℤ, Real.arctan (Real.tan x) = x - m * π ∧ |x - m * π| < π / 2 := by
  have hpi := Real.pi_pos
  have hb : |x / π - round (x / π)| ≤ 1 / 2 := abs_sub_round _
  have hb2 : |x - round (x / π) * π| ≤ π / 2 := by
    have heq : |x - round (x / π) * π| = |x / π - round (x / π)| * π := by
      rw [show x - round (x / π) * π = (x / π - round (x / π)) * π by
        field_simp
        ring]
      rw [abs_mul, abs_of_pos hpi]
    rw [heq]
    calc |x / π - round (x / π)| * π ≤ (1/2) * π :=
          mul_le_mul_of_nonneg_right hb hpi.le
      _ = π / 2 := by ring
  have hne : |x - round (x / π) * π| ≠ π / 2 := by
    intro he
    rcases (abs_eq (by positivity : (0:ℝ) ≤ π / 2)).mp he with he1 | he1
    · exact h (Real.cos_eq_zero_iff.mpr ⟨round (x / π), by linarith⟩)
    · exact h (Real.cos_eq_zero_iff.mpr ⟨round (x / π) - 1, by push_cast; linarith⟩)
  have hlt : |x - round (x / π) * π| < π / 2 := lt_of_le_of_ne hb2 hne
  refine ⟨round (x / π), ?_, hlt⟩
  have hper : Real.tan x = Real.tan (x - round (x / π) * π) := by
    have h2 := Real.tan_add_int_mul_pi (x - round (x / π) * π) (round (x / π))
    rw [sub_add_cancel] at h2
    exact h2
  rw [hper]
  have hab := abs_lt.mp hlt
  exact Real.arctan_tan (by linarith) (by linarith)

lemma cos_int_pi_ne (m : ℤ) : Real.cos (m * π) ≠ 0 := by
  have hs : Real.sin (m * π) = 0 := Real.sin_int_mul_pi m
  have h1 := Real.sin_sq_add_cos_sq (m * π)
  intro hc
  rw [hs, hc] at h1
  norm_num at h1

/-- The solver loop on two symmetric points at distance `r` and direction
`β` in the working frame, with the default constraint `π/2`: the returned
rotation is congruent to `β` modulo `π`.  (One successful fit lands on `β`
up to a multiple of `π`; a vertical start recovers via the `0.01` nudge
and then clamps exactly at the `π/2` boundary.) -/
lemma bfLoop_two (r β : ℝ) (hr : 0 < r) :
    ∃ m : ℤ, bfLoop [-(r * Real.cos β / 2), r * Real.cos β / 2]
      [-(r * Real.sin β / 2), r * Real.sin β / 2] (π / 2) (π / 180) 1 0 0 0.01
      = β - m * π := by
  have hpi := Real.pi_pos
  have h10 : r * Real.cos β * Real.cos 0 + r * Real.sin β * Real.sin 0
      = r * Real.cos β := by simp
  have h20 : r * Real.sin β * Real.cos 0 - r * Real.cos β * Real.sin 0
      = r * Real.sin β := by simp
  have hu : ∀ θ : ℝ, r * Real.cos β * Real.cos θ + r * Real.sin β * Real.sin θ
      = r * Real.cos (β - θ) := by
    intro θ
    rw [Real.cos_sub]
    ring
  have hv : ∀ θ : ℝ, r * Real.sin β * Real.cos θ - r * Real.cos β * Real.sin θ
      = r * Real.sin (β - θ) := by
    intro θ
    rw [Real.sin_sub]
    ring
  by_cases hcb : Real.cos β = 0
  · -- vertical start: first fit fails, nudge, then clamp at +π/2
    obtain ⟨j, hj⟩ := Real.cos_eq_zero_iff.mp hcb
    refine ⟨j, ?_⟩
    rw [bfLoop, if_pos (by norm_num : (1:ℕ) < 20)]
    rw [rot2, h10, h20]
    rw [polyfit_two_none _ _ (by rw [hcb]; ring)]
    simp only []
    rw [if_neg (by norm_num : ¬ (0:ℕ) > 4)]
    rw [bfLoop, if_pos (by norm_num : (1:ℕ) < 20)]
    rw [rot2, hu, hv]
    have hcos2 : Real.cos (β - (0 + 0.01)) ≠ 0 := by
      intro hc
      obtain ⟨j2, hj2⟩ := Real.cos_eq_zero_iff.mp hc
      rw [hj] at hj2
      have hd : (0.01:ℝ) = ((j - j2 : ℤ) : ℝ) * π := by
        push_cast at hj2 ⊢
        linarith
      by_cases hjj : j = j2
      · rw [hjj, sub_self] at hd
        norm_num at hd
      · have h1 : (1:ℝ) ≤ |((j - j2 : ℤ) : ℝ)| := by
          have := Int.one_le_abs (sub_ne_zero.mpr hjj)
          exact_mod_cast this
        have h3 := Real.pi_gt_three
        have h4 : |((j - j2 : ℤ) : ℝ) * π| = |((j - j2 : ℤ) : ℝ)| * π := by
          rw [abs_mul, abs_of_pos hpi]
        have h5 : π ≤ |((j - j2 : ℤ) : ℝ)| * π :=
          le_mul_of_one_le_left hpi.le h1
        have h6 : |(0.01:ℝ)| = |((j - j2 : ℤ) : ℝ) * π| := by rw [hd]
        rw [h4] at h6
        rw [show |(0.01:ℝ)| = 0.01 by norm_num] at h6
        linarith
    rw [polyfit_two _ _ (mul_ne_zero hr.ne' hcos2)]
    simp only []
    rw [show r * Real.sin (β - (0 + 0.01)) / (r * Real.cos (β - (0 + 0.01))) + 0
        = Real.tan (β - (0 + 0.01)) by
      rw [Real.tan_eq_sin_div_cos, mul_div_mul_left _ _ hr.ne']
      ring]
    rw [atan2_one_arctan]
    obtain ⟨m, hm, hmlt⟩ := arctan_tan_shift (β - (0 + 0.01)) hcos2
    rw [hm]
    have habs := abs_lt.mp hmlt
    have hjm : m = j := by
      by_contra hne
      rcases lt_or_gt_of_ne hne with hl | hl
      · have h1 : (1:ℤ) ≤ j - m := by omega
        have h1' : (1:ℝ) ≤ ((j : ℝ) - m) := by exact_mod_cast h1
        have h3 := Real.pi_gt_three
        rw [hj] at habs
        nlinarith [habs.2]
      · have h1 : (j - m : ℤ) ≤ -1 := by omega
        have h1' : ((j : ℝ) - m) ≤ -1 := by exact_mod_cast h1
        have h3 := Real.pi_gt_three
        rw [hj] at habs
        nlinarith [habs.1]
    subst hjm
    have hval : (0:ℝ) + 0.01 + (β - (0 + 0.01) - m * π) = π / 2 := by
      rw [hj]
      ring
    rw [if_neg (by rw [hval]; push_neg; linarith)]
    rw [if_pos (by rw [hval])]
    rw [hj]
    ring
  · -- regular start: one successful fit lands on β - mπ, second fit is flat
    obtain ⟨m, hm, hmlt⟩ := arctan_tan_shift β hcb
    have habs := abs_lt.mp hmlt
    refine ⟨m, ?_⟩
    rw [bfLoop, if_pos (by norm_num : (1:ℕ) < 20)]
    rw [rot2, h10, h20]
    rw [polyfit_two _ _ (mul_ne_zero hr.ne' hcb)]
    simp only []
    rw [show r * Real.sin β / (r * Real.cos β) + 0 = Real.tan β by
      rw [Real.tan_eq_sin_div_cos, mul_div_mul_left _ _ hr.ne']
      ring]
    rw [atan2_one_arctan, hm]
    rw [if_neg (by push_neg; linarith)]
    rw [if_neg (by push_neg; linarith)]
    by_cases htol : |β - m * π| < π / 180
    · rw [if_pos htol]
      ring
    · rw [if_neg htol]
      rw [bfLoop, if_pos (by norm_num : (2:ℕ) < 20)]
      rw [rot2, hu, hv]
      rw [show β - (0 + (β - m * π)) = (m : ℝ) * π by ring]
      rw [polyfit_two _ _ (mul_ne_zero hr.ne' (cos_int_pi_ne m))]
      simp only []
      rw [show r * Real.sin ((m : ℝ) * π) / (r * Real.cos ((m : ℝ) * π)) + 0
          = 0 by rw [Real.sin_int_mul_pi]; simp]
      rw [atan2_one_arctan, Real.arctan_zero]
      rw [if_neg (by push_neg; linarith)]
      rw [if_neg (by push_neg; linarith)]
      rw [if_pos (by rw [abs_zero]; positivity)]
      ring

lemma atan2_zero_neg (x : ℝ) (hx : x < 0) : atan2 0 x = π := by
  unfold atan2
  rw [show (⟨x, 0⟩ : ℂ) = (x : ℂ) by apply Complex.ext <;> simp]
  exact Complex.arg_ofReal_of_neg hx

def d4 : PointDict := [(1, ((0:ℝ), (0:ℝ))), (2, (-1, 0))]

def cmds4 : Cmds := ⟨none, some 0, none⟩

lemma solverX0_d4 : solverX0 d4 0 =
    ([-((-1:ℝ)/2), (-1:ℝ)/2], [-((0:ℝ)/2), (0:ℝ)/2]) := by
  unfold solverX0 rotateL
  simp only [d4, List.map_cons, List.map_nil, List.sum_cons, List.sum_nil,
    List.length_cons, List.length_nil, neg_zero, Real.cos_zero, Real.sin_zero,
    List.zipWith_cons_cons, List.zipWith_nil_right]
  norm_num

/-- **C4 (counterexample).** For the two points `1:(0,0)` and `2:(-1,0)`
with hint angle `0` and no constraint, the solver returns the angle `0`,
while the angle of the segment connecting the two points (in dictionary
order) is `pi`: the returned angle differs from the segment angle by `pi`,
which is not a floating-point tolerance. -/
theorem C4_cex :
    (find_best_projected_ordering d4 cmds4).2 = 0 ∧
      Line.angle ⟨((0:ℝ), (0:ℝ)), ((-1:ℝ), (0:ℝ))⟩ = π ∧
      (0:ℝ) ≠ π := by
  have hpi := Real.pi_pos
  refine ⟨?_, ?_, (Real.pi_ne_zero).symm⟩
  · have hang : (find_best_projected_ordering d4 cmds4).2 =
        bfLoop (solverX0 d4 0).1 (solverX0 d4 0).2 (π / 2) (π / 180)
          1 0 0 0.01 + 0 := rfl
    rw [hang, solverX0_d4]
    simp only []
    rw [bfLoop, if_pos (by norm_num : (1:ℕ) < 20)]
    rw [rot2]
    rw [show (-1:ℝ) * Real.cos 0 + 0 * Real.sin 0 = -1 by simp,
      show (0:ℝ) * Real.cos 0 - (-1) * Real.sin 0 = 0 by simp]
    rw [polyfit_two _ _ (by norm_num : (-1:ℝ) ≠ 0)]
    simp only []
    rw [show (0:ℝ) / (-1) + 0 = 0 by norm_num]
    rw [atan2_one_arctan, Real.arctan_zero]
    rw [if_neg (by push_neg; linarith)]
    rw [if_neg (by push_neg; linarith)]
    rw [if_pos (by rw [abs_zero]; positivity)]
    norm_num
  · show atan2 ((0:ℝ) - 0) ((-1:ℝ) - 0) = π
    rw [show (0:ℝ) - 0 = 0 by ring, show (-1:ℝ) - 0 = -1 by ring]
    exact atan2_zero_neg _ (by norm_num)

/-- **C4 (amended).** For a `PointSet` of exactly 2 distinct points, with
any hint angle and no `userangle_constraint`, the Best-Fit Line Solver
returns an angle congruent to the angle of the segment connecting the two
points *modulo `pi`* (the same undirected line, exactly, in real
arithmetic) — not equal to the directed segment angle itself. -/
theorem C4_two_points (k1 k2 : ℕ) (p1 p2 : Pt) (cmds : Cmds) (a0 : ℝ)
    (ha : cmds.userangle = some a0) (hc : cmds.userangle_constraint = none)
    (hne : p1 ≠ p2) :
    ∃ m : ℤ, (find_best_projected_ordering [(k1, p1), (k2, p2)] cmds).2 =
      Line.angle ⟨p1, p2⟩ + m * π := by
  obtain ⟨ul, ua, uc⟩ := cmds
  have ha' : ua = some a0 := ha
  have hc' : uc = none := hc
  subst ha'
  subst hc'
  set dx := p2.1 - p1.1 with hdx0
  set dy := p2.2 - p1.2 with hdy0
  have hz : (⟨dx, dy⟩ : ℂ) ≠ 0 := by
    intro h0
    apply hne
    have h1 : dx = 0 := by
      have := congrArg Complex.re h0
      simpa using this
    have h2 : dy = 0 := by
      have := congrArg Complex.im h0
      simpa using this
    rw [hdx0] at h1
    rw [hdy0] at h2
    exact Prod.ext_iff.mpr ⟨by linarith, by linarith⟩
  set r := Complex.abs ⟨dx, dy⟩ with hrdef
  have hr : 0 < r := Complex.abs.pos hz
  set α := Complex.arg ⟨dx, dy⟩ with hα
  have hdxe : dx = r * Real.cos α := (Complex.abs_mul_cos_arg ⟨dx, dy⟩).symm
  have hdye : dy = r * Real.sin α := (Complex.abs_mul_sin_arg ⟨dx, dy⟩).symm
  have hU : dx * Real.cos a0 + dy * Real.sin a0 = r * Real.cos (α - a0) := by
    rw [Real.cos_sub]
    nth_rewrite 1 [hdxe, hdye]
    ring
  have hV : dy * Real.cos a0 - dx * Real.sin a0 = r * Real.sin (α - a0) := by
    rw [Real.sin_sub]
    nth_rewrite 1 [hdxe, hdye]
    ring
  have hXY0 : solverX0 [(k1, p1), (k2, p2)] a0 =
      ([-(r * Real.cos (α - a0) / 2), r * Real.cos (α - a0) / 2],
        [-(r * Real.sin (α - a0) / 2), r * Real.sin (α - a0) / 2]) := by
    unfold solverX0 rotateL
    simp only [List.map_cons, List.map_nil, List.sum_cons, List.sum_nil,
      List.length_cons, List.length_nil, List.zipWith_cons_cons,
      List.zipWith_nil_right]
    rw [Real.cos_neg, Real.sin_neg]
    have e1 : p1.1 + -((p1.1 + (p2.1 + 0)) / ((0 + 1 + 1 : ℕ) : ℝ)) = -(dx/2) := by
      push_cast
      rw [hdx0]
      ring
    have e2 : p2.1 + -((p1.1 + (p2.1 + 0)) / ((0 + 1 + 1 : ℕ) : ℝ)) = dx/2 := by
      push_cast
      rw [hdx0]
      ring
    have e3 : p1.2 + -((p1.2 + (p2.2 + 0)) / ((0 + 1 + 1 : ℕ) : ℝ)) = -(dy/2) := by
      push_cast
      rw [hdy0]
      ring
    have e4 : p2.2 + -((p1.2 + (p2.2 + 0)) / ((0 + 1 + 1 : ℕ) : ℝ)) = dy/2 := by
      push_cast
      rw [hdy0]
      ring
    rw [e1, e2, e3, e4]
    refine Prod.ext_iff.mpr ⟨?_, ?_⟩ <;>
      simp only [List.cons.injEq, and_true] <;>
      constructor
    · linear_combination (-1/2 : ℝ) * hU
    · linear_combination (1/2 : ℝ) * hU
    · linear_combination (-1/2 : ℝ) * hV
    · linear_combination (1/2 : ℝ) * hV
  have hang : (find_best_projected_ordering [(k1, p1), (k2, p2)]
      ⟨ul, some a0, none⟩).2 =
      bfLoop (solverX0 [(k1, p1), (k2, p2)] a0).1
        (solverX0 [(k1, p1), (k2, p2)] a0).2 (π / 2) (π / 180) 1 0 0 0.01
        + a0 := rfl
  have hLα : Line.angle ⟨p1, p2⟩ = α := by
    rw [hα, hdx0, hdy0]
    rfl
  obtain ⟨m, hm⟩ := bfLoop_two r (α - a0) hr
  refine ⟨-m, ?_⟩
  rw [hang, hXY0]
  simp only []
  rw [hm, hLα]
  push_cast
  ring

/-- Witness for `C4_two_points` at the concrete two-point input
`{1:(0,0), 2:(0,1)}` with hint angle `0` and no constraint. -/
theorem C4_witness :
    (⟨none, some 0, none⟩ : Cmds).userangle = some 0 ∧
      (⟨none, some 0, none⟩ : Cmds).userangle_constraint = none ∧
      (((0:ℝ), (0:ℝ)) : Pt) ≠ (((0:ℝ), (1:ℝ)) : Pt) ∧
      ∃ m : ℤ,
        (find_best_projected_ordering
          [(1, (((0:ℝ), (0:ℝ)) : Pt)), (2, (((0:ℝ), (1:ℝ)) : Pt))]
          ⟨none, some 0, none⟩).2 =
          Line.angle ⟨((0:ℝ), (0:ℝ)), ((0:ℝ), (1:ℝ))⟩ + m * π :=
  ⟨rfl, rfl, by norm_num [Prod.ext_iff],
    C4_two_points 1 2 _ _ _ 0 rfl rfl (by norm_num [Prod.ext_iff])⟩

end OWIxsec
